import Mathlib

/-!
# Verification of the quACK digest library against its specification

This file shallowly embeds the Rust sources of the `quack` repository
(power-sum and RIBLT quACKs, the additive multiset hash, the invertible
Bloom lookup table, and the power-sum / IBLT accumulators) as executable
Lean definitions, and settles a list of claims about them.

Modelling conventions:
* machine integers are `Nat` with explicit `% 2^w` where the source wraps;
* fallible code (panics, failed assertions) returns `Option`/`Except`;
* external crates that are not part of this repository (SHA3, SipHasher13,
  the libpari root finder, the GLPK ILP solver) are taken as parameters or
  are modelled from the specification, as marked in doc comments;
* `f32` arithmetic in `RandomMapping::next_index` is modelled exactly: every
  IEEE-754 single-precision operation is round-to-nearest-even of the exact
  rational result, which is what the hardware computes for `+ - * /` and
  `sqrt`.  A nonnegative finite binary32 value is represented by a
  mantissa/exponent pair `⟨m, e⟩` denoting `m * 2^(e-23)`, with
  `2^23 ≤ m < 2^24` (and `m = 0` for zero); all rounding is carried out in
  exact integer arithmetic so that proofs can evaluate it.
-/

namespace Quack

/-! ## Exact integer model of nonnegative IEEE-754 binary32 values -/

/-- `⌊log₂ n⌋` by structural recursion on a fuel argument (the kernel can
evaluate this, unlike the library's well-founded definitions). -/
def natLog2F : ℕ → ℕ → ℕ
  | 0, _ => 0
  | fuel + 1, n => if n ≤ 1 then 0 else natLog2F fuel (n / 2) + 1

/-- `⌊log₂ n⌋` (and `0` for `n = 0`). -/
def natLog2 (n : ℕ) : ℕ := natLog2F n n

/-- Newton iteration for the integer square root, by structural recursion
on a fuel argument. The guess decreases strictly until it reaches
`⌊√n⌋`, so fuel `n` is always sufficient. -/
def isqrtF : ℕ → ℕ → ℕ → ℕ
  | 0, _, g => g
  | fuel + 1, n, g =>
    let g' := (g + n / g) / 2
    if g' < g then isqrtF fuel n g' else g

/-- `⌊√n⌋`, computed like `Nat.sqrt` but by structural recursion so that
kernel reduction can evaluate it. -/
def isqrt (n : ℕ) : ℕ := if n ≤ 1 then n else isqrtF n n n

/-- A nonnegative binary32 value `m * 2^(e-23)`; `m = 0` encodes zero,
otherwise `2^23 ≤ m < 2^24` (after `2^24` is renormalized). -/
structure F32 where
  m : ℕ
  e : ℤ
  deriving Repr, DecidableEq

/-- Whether `2^e ≤ a / b`, in exact integer arithmetic. -/
def powLeFrac (a b : ℕ) (e : ℤ) : Bool :=
  if 0 ≤ e then b * 2 ^ e.toNat ≤ a else b ≤ a * 2 ^ (-e).toNat

/-- Round the positive rational `a / b` to the nearest binary32 value
(round-to-nearest, ties to even).  The exponent is located from integer
logarithms of `a` and `b` (correct up to one, then fixed by exact
comparison), and the 24-bit mantissa is obtained from the integer
quotient and remainder of `a * 2^(23-e)` by `b`. -/
def roundFrac (a b : ℕ) : F32 :=
  if a = 0 ∨ b = 0 then ⟨0, 0⟩
  else
    let e0 : ℤ := (natLog2 a : ℤ) - (natLog2 b : ℤ)
    let e : ℤ :=
      if powLeFrac a b (e0 + 1) then e0 + 1
      else if powLeFrac a b e0 then e0 else e0 - 1
    let num : ℕ := if 0 ≤ 23 - e then a * 2 ^ (23 - e).toNat else a
    let den : ℕ := if 0 ≤ 23 - e then b else b * 2 ^ (e - 23).toNat
    let q : ℕ := num / den
    let r : ℕ := num % den
    let m : ℕ :=
      if 2 * r < den then q
      else if den < 2 * r then q + 1
      else if q % 2 = 0 then q else q + 1
    if m = 2 ^ 24 then ⟨2 ^ 23, e + 1⟩ else ⟨m, e⟩

/-- Correctly rounded binary32 square root of a natural number `n < 2^32`
(IEEE-754 requires `sqrt` to be correctly rounded).  With
`e = ⌊log₂ √n⌋` the result grid is `2^(e-23) * ℕ`, so the mantissa is the
nearest integer to `√(n * 4^(23-e))`; a tie is impossible because the
square root of an integer is never a half-integer. -/
def sqrtF32 (n : ℕ) : F32 :=
  if n = 0 then ⟨0, 0⟩
  else
    let e : ℕ := natLog2 (isqrt n)
    let bigN : ℕ := n * 4 ^ (23 - e)
    let fl : ℕ := isqrt bigN
    let m : ℕ := if fl * fl + fl < bigN then fl + 1 else fl
    if m = 2 ^ 24 then ⟨2 ^ 23, (e : ℤ) + 1⟩ else ⟨m, (e : ℤ)⟩

/-! ## `src/riblt/mapping.rs`: `RandomMapping` -/

/-- `RandomMapping` state: an 8-bit PRNG state and the 16-bit last index
(`prng: u8`, `last_index: u16`). -/
structure RandomMapping where
  prng : ℕ
  lastIndex : ℕ
  deriving Repr, DecidableEq

/-- `RandomMapping::new(prng: HashType)`: the `u32` image is truncated to
`u8` (`prng as u8`), and `last_index` starts at `0`. -/
def RandomMapping.new (t : ℕ) : RandomMapping :=
  { prng := t % 256, lastIndex := 0 }

/-- The index stride computed in `next_index` by the `f32` expression
`((last_index as f32 + 1.5) * ((1u16 << 8) as f32 / ((r+1) as f32).sqrt() - 1.0)).ceil() as u16`,
with every single-precision operation modelled as correct rounding of the
exact result:
* `(r+1)` wraps as `u16`; when it wraps to `0` (only possible for
  `r = 65535`) the source divides `256.0` by `sqrt(0.0) = 0.0`, giving
  `+inf`, whose ceiling casts (saturating) to `65535`;
* `s = sqrt((r+1) as f32)` is exact since `r+1 < 2^24`; `s` has exponent
  `se ∈ [0, 8)` so `256/s` is the rational `2^(31-se) / s.m`;
* `c - 1.0` with `c = round(256/s) ≥ 1` is the rational
  `(c.m * 2^ce - 2^23) / 2^23` (exponent `ce ≥ 0`), rounded;
* `last_index as f32 + 1.5` is the rational `(2*last_index + 3) / 2`,
  rounded (in fact always exact, since `2*last_index + 3 < 2^24`);
* the product rounds `a.m * d.m` to 24 bits and adds exponents;
* `.ceil() as u16` saturates at `65535` (it cannot be negative here). -/
def addendF32 (lastIndex r : ℕ) : ℕ :=
  let n : ℕ := (r + 1) % 65536
  let s : F32 := sqrtF32 n
  if s.m = 0 then 65535
  else
    let c : F32 := roundFrac (2 ^ (31 - s.e).toNat) s.m
    let d : F32 := roundFrac (c.m * 2 ^ c.e.toNat - 2 ^ 23) (2 ^ 23)
    let a : F32 := roundFrac (2 * lastIndex + 3) 2
    let p : F32 := roundFrac (a.m * d.m) 1
    let pe : ℤ := p.e + a.e + d.e - 46
    let k : ℕ :=
      if p.m = 0 then 0
      else if 0 ≤ pe - 23 then p.m * 2 ^ (pe - 23).toNat
      else (p.m + 2 ^ (23 - pe).toNat - 1) / 2 ^ (23 - pe).toNat
    min k 65535

/-- `RandomMapping::next_index`: update the PRNG by
`r = (prng as u16).wrapping_mul(0x58b5); prng = r as u8`, then advance
`last_index` by the `f32` stride, saturating at `u16::MAX`
(`checked_add(..).unwrap_or(u16::MAX)`).  The source returns the new
`last_index`; the model returns the whole state, whose `lastIndex` field
is that return value. -/
def RandomMapping.nextIndex (st : RandomMapping) : RandomMapping :=
  let r : ℕ := st.prng * 0x58b5 % 65536
  let addend : ℕ := addendF32 st.lastIndex r
  let last : ℕ :=
    if st.lastIndex + addend ≤ 65535 then st.lastIndex + addend else 65535
  { prng := r % 256, lastIndex := last }

/-- The value of `last_index` after `k` calls to `next_index` on
`RandomMapping::new(t)` (so `mappingSeq t 0 = 0`, and `mappingSeq t k`
for `k ≥ 1` is the value returned by the `k`-th call). -/
def mappingSeq (t k : ℕ) : ℕ :=
  (RandomMapping.nextIndex^[k] (RandomMapping.new t)).lastIndex

/-- `last_index` never exceeds `u16::MAX`. -/
theorem mappingSeq_le_max (t k : ℕ) : mappingSeq t k ≤ 65535 := by
  induction k with
  | zero => simp [mappingSeq, RandomMapping.new]
  | succ k ih =>
    have h : mappingSeq t (k + 1) =
        (RandomMapping.nextIndex
          (RandomMapping.nextIndex^[k] (RandomMapping.new t))).lastIndex := by
      simp [mappingSeq, Function.iterate_succ_apply']
    rw [h]
    unfold RandomMapping.nextIndex
    dsimp only
    split
    · exact ‹_›
    · exact le_refl _

/-- C8 counterexample: at the concrete starting image `t = 0` the sequence
of `last_index` values returned by `next_index` is `383, 65535, 65535, …`:
the second and third calls return the same value, so the sequence is not
strictly increasing, and it is stuck at `65535` (`last_index` is a
saturating `u16`), so it is not unbounded. -/
theorem C8_counterexample :
    mappingSeq 0 1 = 383 ∧ mappingSeq 0 2 = 65535 ∧ mappingSeq 0 3 = 65535 ∧
      ¬ mappingSeq 0 2 < mappingSeq 0 3 := by
  refine ⟨by decide, by decide, by decide, by decide⟩

/-- C8 (amended): for every 32-bit starting image `t`, the sequence of
`last_index` values is a function of `t` alone (indeed of `t mod 256`,
since the PRNG state is a `u8`), and it is non-decreasing and bounded by
`u16::MAX = 65535`; it is not strictly increasing nor unbounded, because
`last_index` saturates at `65535`. -/
theorem C8_mapping_monotone_bounded (t k : ℕ) :
    mappingSeq t k ≤ mappingSeq t (k + 1) ∧ mappingSeq t k ≤ 65535 ∧
      mappingSeq t k = mappingSeq (t % 256) k := by
  refine ⟨?_, mappingSeq_le_max t k, ?_⟩
  · have h : mappingSeq t (k + 1) =
        (RandomMapping.nextIndex
          (RandomMapping.nextIndex^[k] (RandomMapping.new t))).lastIndex := by
      simp [mappingSeq, Function.iterate_succ_apply']
    rw [h]
    unfold RandomMapping.nextIndex
    dsimp only
    split
    · exact Nat.le_add_right _ _
    · exact mappingSeq_le_max t k
  · unfold mappingSeq RandomMapping.new
    rw [Nat.mod_mod_of_dvd _ dvd_rfl]

/-! ## `digest/src/mset.rs`: the additive multiset hash (AMH)

The SHA3-256 primitive comes from the external `sha3` crate, so the model
is parametric in a function `h : ℕ → List ℕ → ℕ` where `h bit bytes`
stands for `SHA3-256(bit || bytes)` (`hash_fn(bit, val)` in the source).
Elements are modelled as the byte strings fed to the hash (`mset.rs`
hashes `elem.to_bytes_be()` of a `BigUint`; the accumulators pass byte
slices). -/

/-- `add_hashes`: 256-bit addition modulo `2^256` (the source adds the two
hashes as little-endian big integers and keeps the low 32 bytes). -/
def hashAdd (a b : ℕ) : ℕ := (a + b) % 2 ^ 256

/-- `AdditiveMsetHash`: a 256-bit hash accumulator, a `u32` element count,
and a 16-byte nonce. -/
structure Digest where
  hash : ℕ
  count : ℕ
  nonce : List ℕ
  deriving Repr, DecidableEq

/-- `AdditiveMsetHash::new_with_seed(nonce)`: the accumulator starts at
`hash_fn(0, nonce)` with count `0`. -/
def Digest.newWithSeed (h : ℕ → List ℕ → ℕ) (nonce : List ℕ) : Digest :=
  { hash := h 0 nonce, count := 0, nonce := nonce }

/-- `AdditiveMsetHash::add`: fold `hash_fn(1, elem)` into the hash by
addition modulo `2^256` and increment the count (`u32`, wrapping modelled;
the source comments "assume no overflow"). -/
def Digest.add (h : ℕ → List ℕ → ℕ) (d : Digest) (elem : List ℕ) : Digest :=
  { hash := hashAdd d.hash (h 1 elem)
    count := (d.count + 1) % 2 ^ 32
    nonce := d.nonce }

/-- `AdditiveMsetHash::add_all`: fold every element's `hash_fn(1, ·)` into
the hash, then add the batch length to the count once. -/
def Digest.addAll (h : ℕ → List ℕ → ℕ) (d : Digest) (elems : List (List ℕ)) :
    Digest :=
  { hash := elems.foldl (fun acc e => hashAdd acc (h 1 e)) d.hash
    count := (d.count + elems.length % 2 ^ 32) % 2 ^ 32
    nonce := d.nonce }

/-- `AdditiveMsetHash::equals`: counts must match, and the hashes must
agree after shifting each side by the other's nonce hash
(`H_a + hash0(s_b) ≡ H_b + hash0(s_a) (mod 2^256)`). -/
def Digest.equals (h : ℕ → List ℕ → ℕ) (a b : Digest) : Bool :=
  a.count == b.count &&
    hashAdd a.hash (h 0 b.nonce) == hashAdd b.hash (h 0 a.nonce)

/-- Adding a list of elements one at a time with `add` (an arbitrary
insertion order of the multiset). -/
def Digest.addList (h : ℕ → List ℕ → ℕ) (d : Digest) (elems : List (List ℕ)) :
    Digest :=
  elems.foldl (fun acc e => acc.add h e) d

theorem Digest.addList_nonce (h : ℕ → List ℕ → ℕ) (d : Digest)
    (l : List (List ℕ)) : (d.addList h l).nonce = d.nonce := by
  induction l generalizing d with
  | nil => rfl
  | cons e l ih => simpa [Digest.addList, Digest.add] using ih _

theorem Digest.addList_hash_mod (h : ℕ → List ℕ → ℕ) (d : Digest)
    (l : List (List ℕ)) :
    (d.addList h l).hash % 2 ^ 256 =
      (d.hash + (l.map (h 1)).sum) % 2 ^ 256 := by
  induction l generalizing d with
  | nil => simp [Digest.addList]
  | cons e l ih =>
    have step : (d.addList h (e :: l)).hash % 2 ^ 256 =
        ((d.add h e).hash + (l.map (h 1)).sum) % 2 ^ 256 := ih _
    rw [step]
    show ((d.hash + h 1 e) % 2 ^ 256 + (l.map (h 1)).sum) % 2 ^ 256 = _
    rw [Nat.mod_add_mod, List.map_cons, List.sum_cons, ← Nat.add_assoc]

theorem Digest.addList_count_mod (h : ℕ → List ℕ → ℕ) (d : Digest)
    (l : List (List ℕ)) :
    (d.addList h l).count % 2 ^ 32 = (d.count + l.length) % 2 ^ 32 := by
  induction l generalizing d with
  | nil => simp [Digest.addList]
  | cons e l ih =>
    have step : (d.addList h (e :: l)).count % 2 ^ 32 =
        ((d.add h e).count + l.length) % 2 ^ 32 := ih _
    rw [step]
    show ((d.count + 1) % 2 ^ 32 + l.length) % 2 ^ 32 = _
    rw [Nat.mod_add_mod, List.length_cons]
    omega

theorem Digest.addList_count_lt (h : ℕ → List ℕ → ℕ) (d : Digest)
    (l : List (List ℕ)) (hd : d.count < 2 ^ 32) :
    (d.addList h l).count < 2 ^ 32 := by
  induction l generalizing d with
  | nil => exact hd
  | cons e l ih => exact ih _ (Nat.mod_lt _ (by norm_num))

/-- C2 (confirmed): for every hash function `h` (standing for SHA3-256
with a domain-separating first byte), any two nonces, and any two
insertion orders `l₁`, `l₂` of the same multiset, the two AMHs agree:
the counts are equal, `H_a + hash0(s_b) ≡ H_b + hash0(s_a) (mod 2^256)`,
and `equals` returns `true`. -/
theorem C2_amh_equivalence (h : ℕ → List ℕ → ℕ) (sa sb : List ℕ)
    (l1 l2 : List (List ℕ)) (hp : l1.Perm l2) :
    ((Digest.newWithSeed h sa).addList h l1).count =
        ((Digest.newWithSeed h sb).addList h l2).count ∧
      (((Digest.newWithSeed h sa).addList h l1).hash + h 0 sb) % 2 ^ 256 =
        (((Digest.newWithSeed h sb).addList h l2).hash + h 0 sa) % 2 ^ 256 ∧
      Digest.equals h ((Digest.newWithSeed h sa).addList h l1)
        ((Digest.newWithSeed h sb).addList h l2) = true := by
  have hlen : l1.length = l2.length := hp.length_eq
  have hsum : (l1.map (h 1)).sum = (l2.map (h 1)).sum := (hp.map (h 1)).sum_eq
  have hca : ((Digest.newWithSeed h sa).addList h l1).count =
      l1.length % 2 ^ 32 := by
    have := Digest.addList_count_mod h (Digest.newWithSeed h sa) l1
    have hlt := Digest.addList_count_lt h (Digest.newWithSeed h sa) l1
      (by simp [Digest.newWithSeed])
    rw [Nat.mod_eq_of_lt hlt] at this
    simpa [Digest.newWithSeed] using this
  have hcb : ((Digest.newWithSeed h sb).addList h l2).count =
      l2.length % 2 ^ 32 := by
    have := Digest.addList_count_mod h (Digest.newWithSeed h sb) l2
    have hlt := Digest.addList_count_lt h (Digest.newWithSeed h sb) l2
      (by simp [Digest.newWithSeed])
    rw [Nat.mod_eq_of_lt hlt] at this
    simpa [Digest.newWithSeed] using this
  have hcount : ((Digest.newWithSeed h sa).addList h l1).count =
      ((Digest.newWithSeed h sb).addList h l2).count := by
    rw [hca, hcb, hlen]
  have hhash : (((Digest.newWithSeed h sa).addList h l1).hash + h 0 sb)
        % 2 ^ 256 =
      (((Digest.newWithSeed h sb).addList h l2).hash + h 0 sa) % 2 ^ 256 := by
    have ha := Digest.addList_hash_mod h (Digest.newWithSeed h sa) l1
    have hb := Digest.addList_hash_mod h (Digest.newWithSeed h sb) l2
    calc (((Digest.newWithSeed h sa).addList h l1).hash + h 0 sb) % 2 ^ 256
        = (((Digest.newWithSeed h sa).addList h l1).hash % 2 ^ 256 + h 0 sb)
            % 2 ^ 256 := by rw [Nat.mod_add_mod]
      _ = ((h 0 sa + (l1.map (h 1)).sum) % 2 ^ 256 + h 0 sb) % 2 ^ 256 := by
            rw [ha]; rfl
      _ = (h 0 sa + (l1.map (h 1)).sum + h 0 sb) % 2 ^ 256 := by
            rw [Nat.mod_add_mod]
      _ = (h 0 sb + (l2.map (h 1)).sum + h 0 sa) % 2 ^ 256 := by
            rw [hsum]; ring_nf
      _ = ((h 0 sb + (l2.map (h 1)).sum) % 2 ^ 256 + h 0 sa) % 2 ^ 256 := by
            rw [Nat.mod_add_mod]
      _ = (((Digest.newWithSeed h sb).addList h l2).hash % 2 ^ 256 + h 0 sa)
            % 2 ^ 256 := by rw [hb]; rfl
      _ = _ := by rw [Nat.mod_add_mod]
  refine ⟨hcount, hhash, ?_⟩
  have hna := Digest.addList_nonce h (Digest.newWithSeed h sa) l1
  have hnb := Digest.addList_nonce h (Digest.newWithSeed h sb) l2
  simp only [Digest.equals, hashAdd, Bool.and_eq_true, beq_iff_eq]
  exact ⟨hcount, by
    rw [hna, hnb]
    exact hhash⟩

/-- C2 witness: a concrete instantiation of the equivalence theorem, with
`h` a simple concrete function, distinct nonces, and the two-element
multiset `{[2], [3]}` inserted in opposite orders. -/
theorem C2_amh_equivalence_witness :
    Digest.equals (fun b l => b + l.sum)
      ((Digest.newWithSeed (fun b l => b + l.sum) [0]).addList
        (fun b l => b + l.sum) [[2], [3]])
      ((Digest.newWithSeed (fun b l => b + l.sum) [1]).addList
        (fun b l => b + l.sum) [[3], [2]]) = true :=
  (C2_amh_equivalence (fun b l => b + l.sum) [0] [1] [[2], [3]] [[3], [2]]
    (by decide)).2.2

/-! ## `src/src/power_sum.rs`: the 32-bit power sum quACK

The crate's `arithmetic::modint` and `precompute` modules are not among
the provided sources (only their uses are), so `ModularInteger<u32>` and
`INVERSE_TABLE_U32` are modelled from the specification. -/

/-- The modulus of the 32-bit field: the largest prime below `2^32`
(spec §9: "reference value 4294967029"). -/
def modulusU32 : ℕ := 4294967029

/-- Modelled from the spec: `ModularInteger<u32>` (`arithmetic/modint.rs`
is not in the provided sources).  A field element of `GF(4294967029)`
stored in a `u32`; `new` reduces its argument, and all operations keep
the value reduced (spec §4.1: add/sub/mul/neg modulo the fixed prime). -/
structure ModInt where
  val : ℕ
  deriving Repr, DecidableEq

def ModInt.new (v : ℕ) : ModInt := ⟨v % modulusU32⟩

def ModInt.add (a b : ModInt) : ModInt := ⟨(a.val + b.val) % modulusU32⟩

def ModInt.sub (a b : ModInt) : ModInt :=
  ⟨(a.val + (modulusU32 - b.val)) % modulusU32⟩

def ModInt.mul (a b : ModInt) : ModInt := ⟨a.val * b.val % modulusU32⟩

def ModInt.neg (a : ModInt) : ModInt := ⟨(modulusU32 - a.val) % modulusU32⟩

/-- One step of the extended Euclidean algorithm, by structural recursion
on fuel (each step replaces `(oldR, r)` by `(r, oldR mod r)`, so 128 steps
are far more than enough for inputs below `2^64`). Returns the Bézout
coefficient `oldX` of the first argument once the remainder reaches 0. -/
def egcdF : ℕ → ℕ → ℕ → ℤ → ℤ → ℤ
  | 0, _, _, oldX, _ => oldX
  | fuel + 1, oldR, r, oldX, x =>
    if r = 0 then oldX
    else egcdF fuel r (oldR % r) x (oldX - (oldR / r : ℕ) * x)

/-- Modelled from the spec: the multiplicative inverse of `b` in
`GF(4294967029)` via the extended Euclidean algorithm (spec §4.1). -/
def modInverse (b : ℕ) : ℕ :=
  ((egcdF 128 b modulusU32 1 0) % (modulusU32 : ℤ)).toNat

/-- Modelled from the spec: `INVERSE_TABLE_U32[i]` (from the absent
`precompute.rs`) holds the inverse of `i + 1`, used to divide by `k` in
Newton's identities (`k·e_k = …`, spec §4.1); `to_coeffs_preallocated`
multiplies position `i` by `INVERSE_TABLE_U32[i]` to divide by `i + 1`. -/
def INVERSE_TABLE_U32 (i : ℕ) : ModInt := ⟨modInverse (i + 1)⟩

/-- `u32` wrapping subtraction on counts already reduced mod `2^32`. -/
def wrapSub32 (a b : ℕ) : ℕ := (a + (2 ^ 32 - b % 2 ^ 32)) % 2 ^ 32

/-- `PowerSumQuackU32`: a vector of `threshold` power sums, the last
inserted value (if known), and a `u32` element count. -/
structure PowerSumQuackU32 where
  powerSums : List ModInt
  lastValue : Option ModInt
  count : ℕ
  deriving Repr, DecidableEq

namespace PowerSumQuackU32

/-- `PowerSumQuackU32::new(threshold)`. -/
def new (threshold : ℕ) : PowerSumQuackU32 :=
  { powerSums := List.replicate threshold (ModInt.new 0)
    lastValue := none
    count := 0 }

/-- `threshold()` is the number of power sums. -/
def threshold (q : PowerSumQuackU32) : ℕ := q.powerSums.length

/-- The list `x^1, x^2, …, x^n` of modular powers accumulated by the
running product `y` in `insert`/`remove`. -/
def powersFrom (y x : ModInt) : ℕ → List ModInt
  | 0 => []
  | n + 1 => y :: powersFrom (y.mul x) x n

/-- `insert(value)`: add `x^(i+1)` to the `i`-th power sum for every `i`,
increment the count (wrapping `u32`), and record the last value.  On a
quACK with zero power sums the source panics (`self.power_sums[size - 1]`
underflows), modelled as `none`. -/
def insert (q : PowerSumQuackU32) (v : ℕ) : Option PowerSumQuackU32 :=
  if q.powerSums.isEmpty then none
  else
    let x := ModInt.new v
    some { powerSums :=
             List.zipWith ModInt.add q.powerSums
               (powersFrom x x q.powerSums.length)
           lastValue := some x
           count := (q.count + 1) % 2 ^ 32 }

/-- `remove(value)`: subtract `x^(i+1)` from the `i`-th power sum,
decrement the count (wrapping `u32`), and clear `last_value` only when it
equals the removed value.  Panics (as `insert`) on zero power sums. -/
def remove (q : PowerSumQuackU32) (v : ℕ) : Option PowerSumQuackU32 :=
  if q.powerSums.isEmpty then none
  else
    let x := ModInt.new v
    some { powerSums :=
             List.zipWith ModInt.sub q.powerSums
               (powersFrom x x q.powerSums.length)
           lastValue :=
             match q.lastValue with
             | some lv => if lv.val = v then none else some lv
             | none => none
           count := (q.count + (2 ^ 32 - 1)) % 2 ^ 32 }

/-- `sub_assign(rhs)`: subtract power sums cell-wise, subtract the counts
(wrapping `u32`), and clear `last_value`.  The source asserts equal
thresholds, modelled as `none`. -/
def subAssign (q rhs : PowerSumQuackU32) : Option PowerSumQuackU32 :=
  if q.threshold ≠ rhs.threshold then none
  else
    some { powerSums := List.zipWith ModInt.sub q.powerSums rhs.powerSums
           lastValue := none
           count := wrapSub32 q.count rhs.count }

/-- `sub(rhs)`: like `sub_assign` but tolerates different thresholds by
truncating to the shorter vector, and returns a new quACK. -/
def sub (q rhs : PowerSumQuackU32) : PowerSumQuackU32 :=
  { powerSums := List.zipWith ModInt.sub q.powerSums rhs.powerSums
    lastValue := none
    count := wrapSub32 q.count rhs.count }

/-- `u32::to_le_bytes`. -/
def u32le (x : ℕ) : List ℕ :=
  [x % 256, x / 256 % 256, x / 65536 % 256, x / 16777216 % 256]

/-- `u32::from_le_bytes` on a 4-byte list. -/
def fromLe4 (l : List ℕ) : ℕ :=
  l.getD 0 0 + 256 * l.getD 1 0 + 65536 * l.getD 2 0 + 16777216 * l.getD 3 0

/-- `serialize(buf)`: `count` as 4 little-endian bytes, then
`last_value.unwrap()` as 4 little-endian bytes (panicking — `none` —
when `last_value` is `None`), then each power sum as 4 little-endian
bytes (the source `memcpy`s the `ModularInteger<u32>` vector, whose
in-memory layout on the little-endian targets is exactly these bytes). -/
def serialize (q : PowerSumQuackU32) : Option (List ℕ) :=
  q.lastValue.map fun lv =>
    u32le q.count ++ u32le lv.val ++ q.powerSums.flatMap (fun p => u32le p.val)

/-- `serialize_with_hint(buf, num_missing)`: as `serialize` but emitting
only `min(threshold, num_missing)` power sums. -/
def serializeWithHint (q : PowerSumQuackU32) (numMissing : ℕ) :
    Option (List ℕ) :=
  q.lastValue.map fun lv =>
    u32le q.count ++ u32le lv.val ++
      (q.powerSums.take (min q.powerSums.length numMissing)).flatMap
        (fun p => u32le p.val)

/-- `deserialize(buf)`: recover `count`, wrap the next 4 bytes in
`Some(ModularInteger::new(..))`, and `memcpy` the remaining
`(len - 8) / 4` power sums raw.  Buffers shorter than 8 bytes panic in
the source (slice index out of range), modelled as `none`. -/
def deserialize (buf : List ℕ) : Option PowerSumQuackU32 :=
  if buf.length < 8 then none
  else
    let n := (buf.length - 8) / 4
    some { count := fromLe4 (buf.take 4)
           lastValue := some (ModInt.new (fromLe4 ((buf.drop 4).take 4)))
           powerSums :=
             (List.range n).map fun i => ⟨fromLe4 ((buf.drop (8 + 4 * i)).take 4)⟩ }

/-- `to_coeffs` / `to_coeffs_preallocated`: Newton's identities.  The
coefficient at position `i` is
`(-Σ_{j<i} p_j·c_{i-j-1} - p_i) / (i+1)`, with position 0 set to `-p_0`.
Indices stay below `count`, which the callers keep at most `threshold`
(beyond it the source would panic with an out-of-range index; the model
reads a default `0` there). -/
def nextCoeff (ps coeffs : List ModInt) : ModInt :=
  let i := coeffs.length
  let base : ModInt := (List.range i).foldl
    (fun acc j =>
      ModInt.sub acc ((ps.getD j ⟨0⟩).mul (coeffs.getD (i - j - 1) ⟨0⟩)))
    ⟨0⟩
  (base.sub (ps.getD i ⟨0⟩)).mul (INVERSE_TABLE_U32 i)

def toCoeffsN (ps : List ModInt) : ℕ → List ModInt
  | 0 => []
  | 1 => [(ps.getD 0 ⟨0⟩).neg]
  | n + 1 =>
    let cs := toCoeffsN ps n
    cs ++ [nextCoeff ps cs]

/-- `to_coeffs()`: the `count` coefficients of the monic polynomial whose
roots are the elements of the quACK, from Newton's identities. -/
def toCoeffs (q : PowerSumQuackU32) : List ModInt :=
  toCoeffsN q.powerSums q.count

/-- Modelled from the spec: `arithmetic::eval` (`evaluator.rs` is not in
the provided sources) evaluates the monic polynomial with the given
coefficient vector by Horner's scheme (spec §4.1); the leading
coefficient 1 is implicit (`to_coeffs` returns `x^2 - 24x + 120` as
`[-24, 120]`). -/
def evalPoly (coeffs : List ModInt) (x : ℕ) : ModInt :=
  coeffs.foldl (fun acc c => (acc.mul (ModInt.new x)).add c) (ModInt.new 1)

/-- `decode_with_log(log)`: nothing decodes from an empty quACK;
otherwise keep exactly the log entries where the coefficient polynomial
evaluates to zero. -/
def decodeWithLog (q : PowerSumQuackU32) (log : List ℕ) : List ℕ :=
  if q.count = 0 then []
  else
    let coeffs := q.toCoeffs
    log.filter fun x => (evalPoly coeffs x).val == 0

theorem u32le_length (x : ℕ) : (u32le x).length = 4 := rfl

theorem fromLe4_u32le (x : ℕ) (hx : x < 2 ^ 32) : fromLe4 (u32le x) = x := by
  simp only [u32le, fromLe4, List.getD]
  simp only [List.get?_eq_getElem?, List.getElem?_cons_zero, List.getElem?_cons_succ]
  simp only [Option.getD_some]
  omega

/-- Recovering the power-sum vector from its little-endian byte image. -/
theorem reconstruct_psums (ps : List ModInt)
    (hp : ∀ p ∈ ps, p.val < 2 ^ 32) :
    (List.range ps.length).map
        (fun i =>
          (⟨fromLe4 (((ps.flatMap fun p => u32le p.val).drop (4 * i)).take 4)⟩ :
            ModInt)) = ps := by
  induction ps with
  | nil => rfl
  | cons p ps ih =>
    have hpv : p.val < 2 ^ 32 := hp p (List.mem_cons_self _ _)
    have hps : ∀ x ∈ ps, x.val < 2 ^ 32 := fun x hx => hp x (List.mem_cons_of_mem _ hx)
    rw [List.length_cons, List.range_succ_eq_map, List.map_cons, List.map_map]
    have hflat : (p :: ps).flatMap (fun p => u32le p.val) =
        u32le p.val ++ ps.flatMap (fun p => u32le p.val) := by
      simp [List.flatMap_cons]
    refine List.cons_eq_cons.mpr ⟨?_, ?_⟩
    · rw [hflat]
      show (⟨fromLe4 ((List.take 4 (u32le p.val ++ _)))⟩ : ModInt) = p
      rw [show (4 : ℕ) = (u32le p.val).length from rfl, List.take_left,
        fromLe4_u32le _ hpv]
    · have step : ∀ i : ℕ,
          ((p :: ps).flatMap (fun p => u32le p.val)).drop (4 * (i + 1)) =
            (ps.flatMap fun p => u32le p.val).drop (4 * i) := by
        intro i
        rw [hflat, show 4 * (i + 1) = 4 + 4 * i by ring, ← List.drop_drop,
          show (4 : ℕ) = (u32le p.val).length from rfl, List.drop_left]
      calc (List.range ps.length).map
            ((fun i => (⟨fromLe4 ((((p :: ps).flatMap fun p => u32le p.val).drop
                (4 * i)).take 4)⟩ : ModInt)) ∘ Nat.succ)
          = (List.range ps.length).map
            (fun i => (⟨fromLe4 (((ps.flatMap fun p => u32le p.val).drop
                (4 * i)).take 4)⟩ : ModInt)) := by
            refine List.map_congr_left fun i _ => ?_
            simp only [Function.comp_apply]
            rw [show i.succ = i + 1 from rfl, step i]
        _ = ps := ih hps

/-- C5 counterexample: a freshly constructed quACK has `last_value = None`,
and `serialize` panics on it (`self.last_value.unwrap()`), so
`deserialize(serialize(q))` is not defined — the claim fails for states
without a last value. -/
theorem C5_counterexample :
    PowerSumQuackU32.serialize (PowerSumQuackU32.new 1) = none ∧
      (PowerSumQuackU32.new 1).lastValue = none := ⟨rfl, rfl⟩

/-- C5 (amended): for every `PowerSumQuackU32` state `q` **whose
`last_value` is `Some`** (and whose fields are in the ranges the source
types guarantee: a reduced last value, `u32` count and power sums),
`serialize` writes `count` as a 32-bit little-endian integer, then
`last_value` as a 32-bit little-endian integer, then the `t` power sums
as 4-byte little-endian field elements (`8 + 4t` bytes in total), and
`deserialize(serialize(q)) = q`; plain `serialize` drops no power sums,
so the round trip is exact. -/
theorem C5_serialize_roundtrip (q : PowerSumQuackU32) (lv : ModInt)
    (hl : q.lastValue = some lv) (hlv : lv.val < modulusU32)
    (hc : q.count < 2 ^ 32) (hp : ∀ p ∈ q.powerSums, p.val < 2 ^ 32) :
    q.serialize = some (u32le q.count ++ u32le lv.val ++
        (q.powerSums.flatMap fun p => u32le p.val)) ∧
      (q.serialize.map List.length) = some (8 + 4 * q.threshold) ∧
      q.serialize.bind PowerSumQuackU32.deserialize = some q := by
  have hser : q.serialize = some (u32le q.count ++ u32le lv.val ++
      (q.powerSums.flatMap fun p => u32le p.val)) := by
    simp [PowerSumQuackU32.serialize, hl]
  have hflatlen : (q.powerSums.flatMap fun p => u32le p.val).length =
      4 * q.powerSums.length := by
    rw [List.length_flatMap]
    induction q.powerSums with
    | nil => rfl
    | cons p ps ih => simp_all [u32le_length]; ring
  refine ⟨hser, ?_, ?_⟩
  · rw [hser]
    show some (u32le q.count ++ u32le lv.val ++
        (q.powerSums.flatMap fun p => u32le p.val)).length = _
    rw [List.length_append, List.length_append, u32le_length, u32le_length,
      hflatlen]
    simp [PowerSumQuackU32.threshold]
  · rw [hser]
    show PowerSumQuackU32.deserialize _ = some q
    set F := q.powerSums.flatMap fun p => u32le p.val with hF
    have hlen : (u32le q.count ++ u32le lv.val ++ F).length =
        8 + 4 * q.powerSums.length := by
      rw [List.length_append, List.length_append, u32le_length, u32le_length,
        hflatlen]
    have hnotlt : ¬ (u32le q.count ++ u32le lv.val ++ F).length < 8 := by
      rw [hlen]; omega
    rw [PowerSumQuackU32.deserialize, if_neg hnotlt]
    have hn : ((u32le q.count ++ u32le lv.val ++ F).length - 8) / 4 =
        q.powerSums.length := by rw [hlen]; omega
    have htake4 : (u32le q.count ++ u32le lv.val ++ F).take 4 =
        u32le q.count := by
      rw [List.append_assoc, show (4 : ℕ) = (u32le q.count).length from rfl,
        List.take_left]
    have hdrop4 : (u32le q.count ++ u32le lv.val ++ F).drop 4 =
        u32le lv.val ++ F := by
      rw [List.append_assoc, show (4 : ℕ) = (u32le q.count).length from rfl,
        List.drop_left]
    have hdropB : (u32le lv.val ++ F).drop 4 = F := by
      rw [show (4 : ℕ) = (u32le lv.val).length from rfl, List.drop_left]
    have hdrop8 : ∀ i : ℕ,
        (u32le q.count ++ u32le lv.val ++ F).drop (8 + 4 * i) =
          F.drop (4 * i) := by
      intro i
      have h1 : (u32le q.count ++ u32le lv.val ++ F).drop (8 + 4 * i) =
          (((u32le q.count ++ u32le lv.val ++ F).drop 4).drop 4).drop
            (4 * i) := by
        rw [List.drop_drop, List.drop_drop]
        congr 1
        ring
      rw [h1, hdrop4, hdropB]
    have hcount : fromLe4 ((u32le q.count ++ u32le lv.val ++ F).take 4) =
        q.count := by rw [htake4, fromLe4_u32le _ hc]
    have hM : modulusU32 < 4294967296 := by decide
    have hlast : ModInt.new
        (fromLe4 (((u32le q.count ++ u32le lv.val ++ F).drop 4).take 4)) =
          lv := by
      rw [hdrop4, show (4 : ℕ) = (u32le lv.val).length from rfl,
        List.take_left, fromLe4_u32le _ (lt_trans hlv hM),
        ModInt.new, Nat.mod_eq_of_lt hlv]
    have hpsums : (List.range (((u32le q.count ++ u32le lv.val ++ F).length
          - 8) / 4)).map
        (fun i => (⟨fromLe4 (((u32le q.count ++ u32le lv.val ++ F).drop
            (8 + 4 * i)).take 4)⟩ : ModInt)) = q.powerSums := by
      rw [hn]
      calc (List.range q.powerSums.length).map
            (fun i => (⟨fromLe4 (((u32le q.count ++ u32le lv.val ++ F).drop
                (8 + 4 * i)).take 4)⟩ : ModInt))
          = (List.range q.powerSums.length).map
            (fun i => (⟨fromLe4 ((F.drop (4 * i)).take 4)⟩ : ModInt)) := by
            exact List.map_congr_left fun i _ => by rw [hdrop8 i]
        _ = q.powerSums := reconstruct_psums _ hp
    simp only [Option.some_inj]
    cases q with
    | mk ps lvq c =>
      simp only at hl hcount hlast hpsums ⊢
      subst hl
      rw [hpsums, hlast, hcount]

/-- C5 witness: the round trip at a concrete state (threshold 2, after
inserting 3). -/
theorem C5_serialize_roundtrip_witness :
    (PowerSumQuackU32.mk [⟨3⟩, ⟨9⟩] (some ⟨3⟩) 1).serialize.bind
        PowerSumQuackU32.deserialize =
      some (PowerSumQuackU32.mk [⟨3⟩, ⟨9⟩] (some ⟨3⟩) 1) :=
  (C5_serialize_roundtrip (PowerSumQuackU32.mk [⟨3⟩, ⟨9⟩] (some ⟨3⟩) 1)
    ⟨3⟩ rfl (by decide) (by decide) (by decide)).2.2

theorem toCoeffsN_length (ps : List ModInt) (n : ℕ) :
    (PowerSumQuackU32.toCoeffsN ps n).length = n := by
  induction n with
  | zero => rfl
  | succ n ih =>
    cases n with
    | zero => rfl
    | succ m =>
      show ((PowerSumQuackU32.toCoeffsN ps (m + 1)) ++ [_]).length = _
      rw [List.length_append, ih]
      rfl

/-- C6 (confirmed): for every power-sum quACK whose element count does not
exceed its threshold (beyond which the source panics) and every log,
`decode_with_log` returns exactly the log entries at which the
`count`-coefficient polynomial from Newton's identities evaluates to zero
in the field: membership is equivalent to being a log entry with zero
evaluation, the result is a sublist of the log (log order preserved), an
entry is returned once per log occurrence irrespective of the root's
multiplicity in the polynomial, and the result is empty when the count
is zero. -/
theorem C6_decode_with_log (q : PowerSumQuackU32) (log : List ℕ)
    (_hth : q.count ≤ q.threshold) :
    q.toCoeffs.length = q.count ∧
      (q.count = 0 → q.decodeWithLog log = []) ∧
      (q.count ≠ 0 → ∀ a : ℕ, a ∈ q.decodeWithLog log ↔
        (a ∈ log ∧ (PowerSumQuackU32.evalPoly q.toCoeffs a).val = 0)) ∧
      (q.decodeWithLog log).Sublist log ∧
      (∀ a : ℕ, q.count ≠ 0 →
        (PowerSumQuackU32.evalPoly q.toCoeffs a).val = 0 →
        (q.decodeWithLog log).count a = log.count a) := by
  refine ⟨toCoeffsN_length _ _, ?_, ?_, ?_, ?_⟩
  · intro h0
    simp [PowerSumQuackU32.decodeWithLog, h0]
  · intro h0 a
    simp [PowerSumQuackU32.decodeWithLog, h0, List.mem_filter, and_comm]
  · by_cases h0 : q.count = 0
    · simp [PowerSumQuackU32.decodeWithLog, h0]
    · simp only [PowerSumQuackU32.decodeWithLog, if_neg h0]
      exact List.filter_sublist _
  · intro a h0 heval
    simp only [PowerSumQuackU32.decodeWithLog, if_neg h0]
    exact List.count_filter (by simpa using heval)

/-- C6 witness: decoding at a concrete quACK (one element 3, threshold 2)
against the log `[3, 5]`. -/
theorem C6_decode_with_log_witness :
    3 ∈ (PowerSumQuackU32.mk [⟨3⟩, ⟨9⟩] (some ⟨3⟩) 1).decodeWithLog [3, 5] ∧
      ((PowerSumQuackU32.mk [⟨3⟩, ⟨9⟩] (some ⟨3⟩) 1).decodeWithLog
        [3, 5]).Sublist [3, 5] :=
  ⟨((C6_decode_with_log (PowerSumQuackU32.mk [⟨3⟩, ⟨9⟩] (some ⟨3⟩) 1)
      [3, 5] (by decide)).2.2.1 (by decide) 3).mpr ⟨by decide, by decide⟩,
    (C6_decode_with_log (PowerSumQuackU32.mk [⟨3⟩, ⟨9⟩] (some ⟨3⟩) 1)
      [3, 5] (by decide)).2.2.2.1⟩

end PowerSumQuackU32

/-! ## `src/riblt/symbol.rs`, `sketch.rs`, `decoder.rs`: the RIBLT quACK -/

/-- `CodedSymbol`: a 32-bit XOR of source-symbol hashes and an 8-bit
wrapping counter (`count: u8`; the removal direction is `u8::MAX`, which
acts as `-1` modulo 256, and the decoder's comparisons with `-1` are the
comparisons with `255`). -/
structure CodedSymbol where
  hash : ℕ
  count : ℕ
  deriving Repr, DecidableEq

/-- `CodedSymbol::apply(hash, direction)`: XOR the hash in and add the
direction to the counter, wrapping as `u8`. -/
def CodedSymbol.apply (c : CodedSymbol) (h dir : ℕ) : CodedSymbol :=
  { hash := c.hash ^^^ h, count := (c.count + dir) % 256 }

/-- The cell indices below `m` visited by the loop
`while m.last_index < len { apply(at last_index); m.next_index(); }`
starting from `RandomMapping::new(t)` (so index `0` is always first).
The fuel `m + 1` suffices because every reachable PRNG state yields a
positive stride until `last_index` saturates at `65535 ≥ m`; the source
would loop forever on a sketch longer than `65536` cells, which is not
modelled. -/
def mappingIndicesF : ℕ → RandomMapping → ℕ → List ℕ
  | 0, _, _ => []
  | fuel + 1, st, m =>
    if st.lastIndex < m then
      st.lastIndex :: mappingIndicesF fuel st.nextIndex m
    else []

def mappingIndices (t m : ℕ) : List ℕ :=
  mappingIndicesF (m + 1) (RandomMapping.new t) m

/-- Apply `(t, dir)` to the sketch at each of the given cell indices. -/
def applyAt (sk : List CodedSymbol) (idxs : List ℕ) (t dir : ℕ) :
    List CodedSymbol :=
  idxs.foldl (fun sk i => sk.set i ((sk.getD i ⟨0, 0⟩).apply t dir)) sk

/-- `IBLTQuackU32`: a vector of coded symbols, the last inserted value
(if known), and a `u32` element count. -/
structure IBLTQuackU32 where
  sketch : List CodedSymbol
  lastValue : Option ℕ
  count : ℕ
  deriving Repr, DecidableEq

namespace IBLTQuackU32

/-- `IBLTQuackU32::new(num_symbols)`. -/
def new (numSymbols : ℕ) : IBLTQuackU32 :=
  { sketch := List.replicate numSymbols ⟨0, 0⟩, lastValue := none, count := 0 }

def threshold (q : IBLTQuackU32) : ℕ := q.sketch.length

/-- `insert(t)`: bump the count (wrapping `u32`), record the last value,
and apply `(t, ADD)` at every mapped cell below the sketch length. -/
def insert (q : IBLTQuackU32) (t : ℕ) : IBLTQuackU32 :=
  { sketch := applyAt q.sketch (mappingIndices t q.sketch.length) t 1
    lastValue := some t
    count := (q.count + 1) % 2 ^ 32 }

/-- `remove(t)`: decrement the count (wrapping `u32`) and apply
`(t, REMOVE)` at every mapped cell; `last_value` is not touched. -/
def remove (q : IBLTQuackU32) (t : ℕ) : IBLTQuackU32 :=
  { sketch := applyAt q.sketch (mappingIndices t q.sketch.length) t 255
    lastValue := q.lastValue
    count := (q.count + (2 ^ 32 - 1)) % 2 ^ 32 }

/-- `sub_assign(s2)`: panics (`none`) when the sketch sizes differ or
`self.count < s2.count`; otherwise subtracts cell-wise by applying each
right-hand cell with the negated (`wrapping_neg`) counter.  Note that,
unlike `PowerSumQuackU32::sub_assign`, **`last_value` is left unchanged**. -/
def subAssign (q s2 : IBLTQuackU32) : Option IBLTQuackU32 :=
  if q.sketch.length ≠ s2.sketch.length then none
  else if q.count < s2.count then none
  else
    some { sketch := List.zipWith
             (fun a b => a.apply b.hash ((256 - b.count % 256) % 256))
             q.sketch s2.sketch
           lastValue := q.lastValue
           count := wrapSub32 q.count s2.count }

/-- `sub(rhs)`: like `sub_assign` but truncating to the shorter sketch,
clearing `last_value`, and never panicking. -/
def sub (q rhs : IBLTQuackU32) : IBLTQuackU32 :=
  { sketch := List.zipWith
      (fun a b => a.apply b.hash ((256 - b.count % 256) % 256))
      q.sketch rhs.sketch
    lastValue := none
    count := wrapSub32 q.count rhs.count }

/-- `serialize(buf)`: `count` as 4 little-endian bytes, then
`last_value.unwrap()` (panicking — `none` — when `last_value` is `None`)
as 4 little-endian bytes, then the coded symbols as 5 bytes each
(`hash` little-endian followed by `count`, per the wire format; the
crate's own tests fix the cell size at 5 bytes). -/
def serialize (q : IBLTQuackU32) : Option (List ℕ) :=
  q.lastValue.map fun lv =>
    PowerSumQuackU32.u32le q.count ++ PowerSumQuackU32.u32le lv ++
      q.sketch.flatMap fun c => PowerSumQuackU32.u32le c.hash ++ [c.count % 256]

/-! ### The peeling decoder (`decoder.rs`)

`Decoder::new` is not among the provided sources; following spec §4.12
step 1 it is modelled as filling the `decodable` queue with every cell
index whose symbol has count `±1`, or count `0` with hash `0` (the same
predicate `add_coded_symbol` checks).  The decoder's `local` and `window`
coding windows, and the mapping/heap bookkeeping inside `CodingWindow`,
are never observed on the `IBLTQuackU32::decode` path (which only reads
`remote.symbols` and `decoded`), so the state carries the coded vector,
the remote symbol list, and the decoded counter.

The source iterates `for didx in 0..self.decodable.len()`: in Rust the
range end is evaluated once, so cells pushed onto `decodable` during the
loop are never visited; the loop is therefore a fold over the initial
queue. -/

/-- Modelled from the spec: the initially decodable cells
(`Decoder::new` is missing from the sources; spec §4.12 step 1). -/
def initQueue (cs : List CodedSymbol) : List ℕ :=
  (List.range cs.length).filter fun i =>
    let c := cs.getD i ⟨0, 0⟩
    c.count == 1 || c.count == 255 || (c.count == 0 && c.hash == 0)

/-- Decoder state observed by `decode`: the coded symbols, the recovered
remote symbols, and the number of resolved cells. -/
structure DecoderState where
  cs : List CodedSymbol
  remote : List ℕ
  decoded : ℕ
  deriving Repr, DecidableEq

/-- `Decoder::apply_new_symbol(t, REMOVE)`: peel `t` out of every cell of
its mapping sequence below the vector length (the pushes onto
`decodable` that this performs are never visited, see above). -/
def applyNewSymbol (cs : List CodedSymbol) (t : ℕ) : List CodedSymbol :=
  applyAt cs (mappingIndices t cs.length) t 255

/-- `Decoder::try_decode`: process the decodable queue in order.  A cell
with count `1` emits its hash to `remote`, peels it from the vector, and
counts as decoded; a cell with count `-1` (`255`) panics
("only handle subset reconciliation"); a cell with count `0` counts as
decoded; any other count panics ("invalid degree for decodable coded
symbol"). -/
def tryDecodeLoop : List ℕ → DecoderState → Except String DecoderState
  | [], st => .ok st
  | cidx :: rest, st =>
    let c := st.cs.getD cidx ⟨0, 0⟩
    if c.count = 1 then
      tryDecodeLoop rest
        { cs := applyNewSymbol st.cs c.hash
          remote := st.remote ++ [c.hash]
          decoded := st.decoded + 1 }
    else if c.count = 255 then .error "only handle subset reconciliation"
    else if c.count = 0 then
      tryDecodeLoop rest { st with decoded := st.decoded + 1 }
    else .error "invalid degree for decodable coded symbol"

def tryDecode (cs : List CodedSymbol) : Except String DecoderState :=
  tryDecodeLoop (initQueue cs) { cs := cs, remote := [], decoded := 0 }

/-- `IBLTQuackU32::decode`: run the peeling decoder; return the remote
list when every coded symbol was decoded (`decoded() == cs.len()`),
`None` when peeling stalled, and propagate decoder panics. -/
def decode (q : IBLTQuackU32) : Except String (Option (List ℕ)) :=
  match tryDecode q.sketch with
  | .error e => .error e
  | .ok st => .ok (if st.decoded = st.cs.length then some st.remote else none)

theorem applyAt_length (idxs : List ℕ) (sk : List CodedSymbol) (t dir : ℕ) :
    (applyAt sk idxs t dir).length = sk.length := by
  induction idxs generalizing sk with
  | nil => rfl
  | cons i idxs ih =>
    show (applyAt (sk.set i _) idxs t dir).length = _
    rw [ih, List.length_set]

theorem tryDecodeLoop_cs_length (queue : List ℕ) (st : DecoderState)
    (st' : DecoderState) (h : tryDecodeLoop queue st = .ok st') :
    st'.cs.length = st.cs.length := by
  induction queue generalizing st with
  | nil =>
    simp only [tryDecodeLoop, Except.ok.injEq] at h
    rw [← h]
  | cons cidx rest ih =>
    simp only [tryDecodeLoop] at h
    split at h
    · have h1 := ih _ h
      rw [h1]
      exact applyAt_length _ _ _ _
    · split at h
      · exact absurd h (by simp)
      · split at h
        · exact ih { st with decoded := st.decoded + 1 } h
        · exact absurd h (by simp)

end IBLTQuackU32

/-! ## `bloom-sd/src/iblt.rs`: the invertible Bloom lookup table

The packed counter vector (`valuevec.rs`) is not among the provided
sources, so `ValueVec` is modelled from the spec (§3: an array of `m`
cells of `b`-bit unsigned integers with `get`, `set`,
`max_value = 2^b - 1`; `len()` is the number of bits).  The two keyed
128-bit hash builders are the external `siphasher` crate and are taken
as function parameters carried in the structure. -/

/-- Modelled from the spec: the packed value vector. -/
structure ValueVec where
  bits : ℕ
  vals : List ℕ
  deriving Repr, DecidableEq

def ValueVec.new (bits entries : ℕ) : ValueVec :=
  ⟨bits, List.replicate entries 0⟩

def ValueVec.get (v : ValueVec) (i : ℕ) : ℕ := v.vals.getD i 0

def ValueVec.set (v : ValueVec) (i x : ℕ) : ValueVec := ⟨v.bits, v.vals.set i x⟩

def ValueVec.maxValue (v : ValueVec) : ℕ := 2 ^ v.bits - 1

/-- `elem_to_u32`: the DJB hash of the `djb_hash` crate's `X33aU32`
(`h ← h·33 + byte mod 2^32` from 5381; the crate's own test pins
`elem_to_u32(9983u32.to_be_bytes()) = 2086475114`, which this definition
satisfies). -/
def djbHash (bytes : List ℕ) : ℕ :=
  bytes.foldl (fun h b => (h * 33 + b) % 2 ^ 32) 5381

/-- `HashIter::from(item, count, b1, b2)`: position 0 yields `h1`,
position 1 yields `h2`, and position `i ≥ 2` yields
`(h1 + i) * h2` in wrapping `u64` arithmetic. -/
def hashIter (h1 h2 count : ℕ) : List ℕ :=
  (List.range count).map fun i =>
    if i = 0 then h1
    else if i = 1 then h2
    else (h1 + i) % 2 ^ 64 * h2 % 2 ^ 64

/-- `InvBloomLookupTable`: packed counters, packed 32-bit data sums, the
cell and hash counts, the seed, and the two keyed hash functions (the
external SipHasher13 builders, modelled as the functions they compute on
the `u32` image). -/
structure InvBloomLookupTable where
  counters : ValueVec
  data : ValueVec
  numEntries : ℕ
  numHashes : ℕ
  seed : ℕ
  h1 : ℕ → ℕ
  h2 : ℕ → ℕ

namespace InvBloomLookupTable

/-- The `k` cell indices of a `u32` image (`indexes`, after
`elem_to_u32`): each hash reduced modulo the number of entries. -/
def indexesU32 (t : InvBloomLookupTable) (u : ℕ) : List ℕ :=
  (hashIter (t.h1 u) (t.h2 u) t.numHashes).map fun h => h % t.numEntries

/-- `empty_clone()`: same geometry, seeds and hash builders, all
counters and data zeroed. -/
def emptyClone (t : InvBloomLookupTable) : InvBloomLookupTable :=
  { counters := ValueVec.new t.counters.bits t.numEntries
    data := ValueVec.new 32 t.numEntries
    numEntries := t.numEntries
    numHashes := t.numHashes
    seed := t.seed
    h1 := t.h1
    h2 := t.h2 }

/-- The per-cell update of `insert`: increment the counter, wrapping to
`0` at `max_value`, and add the DJB image into the data sum modulo
`2^32`. -/
def insStep (u : ℕ) (t : InvBloomLookupTable) (idx : ℕ) :
    InvBloomLookupTable :=
  let cur := t.counters.get idx
  { t with
      counters := t.counters.set idx
        (if cur < t.counters.maxValue then cur + 1 else 0)
      data := t.data.set idx ((t.data.get idx + u) % 2 ^ 32) }

/-- `insert(item)` (the returned membership boolean is dropped): apply
the per-cell update at each of the `k` hash positions in order. -/
def insert (t : InvBloomLookupTable) (item : List ℕ) : InvBloomLookupTable :=
  let u := djbHash item
  (t.indexesU32 u).foldl (insStep u) t

/-- `remove_u32(item_u32)`: at each of the `k` cells, decrement the
counter, wrapping to `max_value` at `0`, and subtract the image from the
data sum modulo `2^32`. -/
def removeU32 (t : InvBloomLookupTable) (u : ℕ) : InvBloomLookupTable :=
  (t.indexesU32 u).foldl
    (fun t idx =>
      let cur := t.counters.get idx
      { t with
          counters := t.counters.set idx
            (if cur = 0 then t.counters.maxValue else cur - 1)
          data := t.data.set idx
            ((t.data.get idx + (2 ^ 32 - u % 2 ^ 32)) % 2 ^ 32) })
    t

/-- Result of `eliminate_elems`: normal return, a failed
`assert!(removed_set.insert(item))` (a duplicate peel), or exhausted
fuel (the outer loop of the source has no intrinsic bound). -/
inductive ElimResult where
  | ok (t : InvBloomLookupTable) (removed : List ℕ)
  | assertFail
  | outOfFuel

/-- One pass of the inner `for i in 0..num_entries` loop: peel every cell
whose counter is exactly 1, recording the peeled image; `none` models the
assertion failure when an image is peeled twice. -/
def elimPassGo (t : InvBloomLookupTable) (removed : List ℕ) (flag : Bool) :
    List ℕ → Option (InvBloomLookupTable × List ℕ × Bool)
  | [] => some (t, removed, flag)
  | i :: rest =>
    if t.counters.get i ≠ 1 then elimPassGo t removed flag rest
    else
      let item := t.data.get i
      let t' := t.removeU32 item
      if item ∈ removed then none
      else elimPassGo t' (removed ++ [item]) true rest

/-- `eliminate_elems()`: repeat passes until one removes nothing. -/
def eliminateElems : ℕ → InvBloomLookupTable → List ℕ → ElimResult
  | 0, _, _ => .outOfFuel
  | fuel + 1, t, removed =>
    match elimPassGo t removed false (List.range t.numEntries) with
    | none => .assertFail
    | some (t', removed', flag) =>
      if flag then eliminateElems fuel t' removed' else .ok t' removed'

def ElimResult.isAssertFail : ElimResult → Bool
  | .assertFail => true
  | _ => false

theorem elimPassGo_nodup (idxs : List ℕ) (t : InvBloomLookupTable)
    (removed : List ℕ) (flag : Bool) (t' : InvBloomLookupTable)
    (removed' : List ℕ) (flag' : Bool)
    (h : elimPassGo t removed flag idxs = some (t', removed', flag'))
    (hn : removed.Nodup) : removed'.Nodup := by
  induction idxs generalizing t removed flag with
  | nil =>
    simp only [elimPassGo, Option.some_inj, Prod.mk.injEq] at h
    obtain ⟨rfl, rfl, rfl⟩ := h
    exact hn
  | cons i rest ih =>
    simp only [elimPassGo] at h
    split at h
    · exact ih _ _ _ h hn
    · split at h
      · exact absurd h (by simp)
      · refine ih _ _ _ h ?_
        have hmem : t.data.get i ∉ removed := by assumption
        simpa [List.concat_eq_append] using hn.concat hmem

theorem eliminateElems_nodup (fuel : ℕ) (t : InvBloomLookupTable)
    (removed : List ℕ) (t' : InvBloomLookupTable) (l : List ℕ)
    (h : eliminateElems fuel t removed = .ok t' l) (hn : removed.Nodup) :
    l.Nodup := by
  induction fuel generalizing t removed with
  | zero => exact absurd h (by simp [eliminateElems])
  | succ fuel ih =>
    simp only [eliminateElems] at h
    split at h
    · exact absurd h (by simp)
    · rename_i t2 r2 flag hpass
      split at h
      · exact ih _ _ h (elimPassGo_nodup _ _ _ _ _ _ _ hpass hn)
      · simp only [ElimResult.ok.injEq] at h
        obtain ⟨-, hrm⟩ := h
        rw [← hrm]
        exact elimPassGo_nodup _ _ _ _ _ _ _ hpass hn

/-- C7 counterexample: an `InvBloomLookupTable` state on which the
internal assertion of `eliminate_elems` fails.  Cell 0 has counter 1 and
data 5, but the image 5 hashes (with one hash function, here the
identity) to cell 1, so `remove_u32(5)` never clears cell 0: the next
pass peels 5 again and `assert!(removed_set.insert(item))` panics. -/
theorem C7_counterexample :
    (eliminateElems 3
      { counters := ⟨8, [1, 0]⟩
        data := ⟨32, [5, 0]⟩
        numEntries := 2
        numHashes := 1
        seed := 0
        h1 := fun x => x
        h2 := fun x => x }
      []).isAssertFail = true := by
  decide

/-- C7 (amended): the set of image identifiers returned by a completed
`eliminate_elems` contains each identifier at most once — the assertion
guarantees this whenever it returns; but the assertion itself *can* fail:
on states whose count-1 cell holds a data value that does not hash back
to that cell, the same identifier is peeled twice and the source panics
instead of returning. -/
theorem C7_eliminate_elems_nodup (fuel : ℕ) (t : InvBloomLookupTable)
    (t' : InvBloomLookupTable) (l : List ℕ)
    (h : eliminateElems fuel t [] = .ok t' l) : l.Nodup :=
  eliminateElems_nodup fuel t [] t' l h List.nodup_nil

/-- C7 witness: on a state that fully peels (cell 0 holds counter 1 and
data 6, and 6 hashes back to cell 0), `eliminate_elems` returns the
single image `[6]`, which has no duplicates. -/
theorem C7_eliminate_elems_nodup_witness : ([6] : List ℕ).Nodup :=
  C7_eliminate_elems_nodup 3
    ⟨⟨8, [1, 0]⟩, ⟨32, [6, 0]⟩, 2, 1, 0, fun x => x, fun x => x⟩
    ⟨⟨8, [0, 0]⟩, ⟨32, [0, 0]⟩, 2, 1, 0, fun x => x, fun x => x⟩ [6] rfl

end InvBloomLookupTable

theorem ValueVec.get_set_ne (v : ValueVec) (i j x : ℕ) (h : i ≠ j) :
    (v.set i x).get j = v.get j := by
  simp [ValueVec.get, ValueVec.set, List.getD, List.getElem?_set_ne h]

theorem ValueVec.get_set_self (v : ValueVec) (i x : ℕ)
    (h : i < v.vals.length) : (v.set i x).get i = x := by
  simp [ValueVec.get, ValueVec.set, List.getD,
    List.getElem?_set_eq_of_lt _ h]

theorem ValueVec.get_set (v : ValueVec) (i j x : ℕ) :
    (v.set i x).get j = if i = j ∧ i < v.vals.length then x else v.get j := by
  by_cases hij : i = j
  · subst hij
    by_cases hlen : i < v.vals.length
    · rw [ValueVec.get_set_self _ _ _ hlen, if_pos ⟨rfl, hlen⟩]
    · rw [if_neg (by tauto)]
      simp only [ValueVec.get, ValueVec.set]
      rw [List.set_eq_of_length_le (by omega)]
  · rw [ValueVec.get_set_ne _ _ _ _ hij, if_neg (by tauto)]

theorem ValueVec.bits_set (v : ValueVec) (i x : ℕ) :
    (v.set i x).bits = v.bits := rfl

theorem ValueVec.length_set (v : ValueVec) (i x : ℕ) :
    (v.set i x).vals.length = v.vals.length := by
  simp [ValueVec.set]

namespace InvBloomLookupTable

/-- `insStep` preserves the geometry of the table. -/
theorem insStep_geometry (u : ℕ) (t : InvBloomLookupTable) (idx : ℕ) :
    (insStep u t idx).numEntries = t.numEntries ∧
      (insStep u t idx).numHashes = t.numHashes ∧
      (insStep u t idx).counters.bits = t.counters.bits ∧
      (insStep u t idx).counters.vals.length = t.counters.vals.length ∧
      (insStep u t idx).data.vals.length = t.data.vals.length := by
  refine ⟨rfl, rfl, rfl, ?_, ?_⟩ <;> simp [insStep, ValueVec.set]

theorem foldl_insStep_geometry (u : ℕ) (idxs : List ℕ)
    (t : InvBloomLookupTable) :
    (idxs.foldl (insStep u) t).numEntries = t.numEntries ∧
      (idxs.foldl (insStep u) t).numHashes = t.numHashes ∧
      (idxs.foldl (insStep u) t).counters.bits = t.counters.bits ∧
      (idxs.foldl (insStep u) t).counters.vals.length =
        t.counters.vals.length ∧
      (idxs.foldl (insStep u) t).data.vals.length = t.data.vals.length := by
  induction idxs generalizing t with
  | nil => exact ⟨rfl, rfl, rfl, rfl, rfl⟩
  | cons i rest ih =>
    have h1 := insStep_geometry u t i
    have h2 := ih (insStep u t i)
    exact ⟨h2.1.trans h1.1, h2.2.1.trans h1.2.1, h2.2.2.1.trans h1.2.2.1,
      h2.2.2.2.1.trans h1.2.2.2.1, h2.2.2.2.2.trans h1.2.2.2.2⟩

theorem insert_geometry (t : InvBloomLookupTable) (item : List ℕ) :
    (t.insert item).numEntries = t.numEntries ∧
      (t.insert item).numHashes = t.numHashes ∧
      (t.insert item).counters.bits = t.counters.bits ∧
      (t.insert item).counters.vals.length = t.counters.vals.length ∧
      (t.insert item).data.vals.length = t.data.vals.length :=
  foldl_insStep_geometry _ _ _

theorem foldl_insert_geometry (elems : List (List ℕ))
    (t : InvBloomLookupTable) :
    (elems.foldl insert t).numEntries = t.numEntries ∧
      (elems.foldl insert t).numHashes = t.numHashes ∧
      (elems.foldl insert t).counters.bits = t.counters.bits ∧
      (elems.foldl insert t).counters.vals.length =
        t.counters.vals.length ∧
      (elems.foldl insert t).data.vals.length = t.data.vals.length := by
  induction elems generalizing t with
  | nil => exact ⟨rfl, rfl, rfl, rfl, rfl⟩
  | cons e rest ih =>
    have h1 := insert_geometry t e
    have h2 := ih (t.insert e)
    exact ⟨h2.1.trans h1.1, h2.2.1.trans h1.2.1, h2.2.2.1.trans h1.2.2.1,
      h2.2.2.2.1.trans h1.2.2.2.1, h2.2.2.2.2.trans h1.2.2.2.2⟩

/-- Counter values stay below `2^bits` under `insStep`. -/
theorem insStep_counters_lt (u : ℕ) (t : InvBloomLookupTable) (idx : ℕ)
    (h : ∀ j, t.counters.get j < 2 ^ t.counters.bits) :
    ∀ j, (insStep u t idx).counters.get j <
      2 ^ (insStep u t idx).counters.bits := by
  intro j
  show (t.counters.set idx (if t.counters.get idx < t.counters.maxValue
      then t.counters.get idx + 1 else 0)).get j <
    2 ^ (t.counters.set idx _).bits
  rw [ValueVec.bits_set, ValueVec.get_set]
  split
  · split
    · have hmax : t.counters.get idx < t.counters.maxValue := by assumption
      have hpos : 0 < 2 ^ t.counters.bits := Nat.pos_pow_of_pos _ (by norm_num)
      simp only [ValueVec.maxValue] at hmax
      omega
    · exact Nat.pos_pow_of_pos _ (by norm_num)
  · exact h j

theorem foldl_insStep_counters_lt (u : ℕ) (idxs : List ℕ)
    (t : InvBloomLookupTable)
    (h : ∀ j, t.counters.get j < 2 ^ t.counters.bits) :
    ∀ j, (idxs.foldl (insStep u) t).counters.get j <
      2 ^ (idxs.foldl (insStep u) t).counters.bits := by
  induction idxs generalizing t with
  | nil => exact h
  | cons i rest ih => exact ih _ (insStep_counters_lt u t i h)

theorem foldl_insert_counters_lt (elems : List (List ℕ))
    (t : InvBloomLookupTable)
    (h : ∀ j, t.counters.get j < 2 ^ t.counters.bits) :
    ∀ j, (elems.foldl insert t).counters.get j <
      2 ^ (elems.foldl insert t).counters.bits := by
  induction elems generalizing t with
  | nil => exact h
  | cons e rest ih => exact ih _ (foldl_insStep_counters_lt _ _ _ h)

theorem getD_replicate_zero (n j : ℕ) :
    (List.replicate n (0 : ℕ)).getD j 0 = 0 := by
  rcases Nat.lt_or_ge j n with hj | hj
  · simp [List.getD, List.getElem?_replicate, hj]
  · simp [List.getD, List.getElem?_eq_none
      (by simpa [List.length_replicate] using hj : (List.replicate n (0 : ℕ)).length ≤ j)]

theorem emptyClone_counters_lt (t : InvBloomLookupTable) :
    ∀ j, t.emptyClone.counters.get j < 2 ^ t.emptyClone.counters.bits := by
  intro j
  show (ValueVec.new t.counters.bits t.numEntries).get j <
    2 ^ (ValueVec.new t.counters.bits t.numEntries).bits
  have hz : (ValueVec.new t.counters.bits t.numEntries).get j = 0 :=
    getD_replicate_zero _ _
  rw [hz]
  exact Nat.pos_pow_of_pos _ (by norm_num)

end InvBloomLookupTable

/-! ## `accumulator/src/iblt.rs`: the IBLT accumulator's difference step -/

/-- `IBLTAccumulator`: a digest and an IBLT of all processed packets. -/
structure IBLTAccumulator where
  digest : Digest
  iblt : InvBloomLookupTable

namespace IBLTAccumulator

/-- The per-cell loop of `calculate_difference_iblt`
(`for i in 0..num_entries`), carrying the IBLT being turned into the
difference and the running `iblt_sum` (a `u32`; wrapping modelled —
the debug build would panic on overflow instead).  Each step takes the
counter difference in wrapping `u32` arithmetic masked to the counter
width, accumulates it, takes the data difference modulo `2^32`, and
returns `None` (the source's early `return None`) on a cell with zero
counter difference but nonzero data difference. -/
def diffLoop (received : InvBloomLookupTable) (mask : ℕ) :
    List ℕ → InvBloomLookupTable → ℕ → Option (InvBloomLookupTable × ℕ)
  | [], iblt, sum => some (iblt, sum)
  | i :: rest, iblt, sum =>
    let loggedCount := iblt.counters.get i
    let receivedCount := received.counters.get i
    let diffCount :=
      (loggedCount + (2 ^ 32 - receivedCount % 2 ^ 32)) % 2 ^ 32 &&& mask
    let iblt1 : InvBloomLookupTable :=
      { iblt with counters := iblt.counters.set i diffCount }
    let sum1 := (sum + diffCount) % 2 ^ 32
    let loggedData := iblt1.data.get i
    let receivedData := received.data.get i
    let diffData := (loggedData + (2 ^ 32 - receivedData % 2 ^ 32)) % 2 ^ 32
    if diffCount = 0 ∧ diffData ≠ 0 then none
    else
      diffLoop received mask rest
        { iblt1 with data := iblt1.data.set i diffData } sum1

/-- `calculate_difference_iblt(n_dropped, logged_elems, received_iblt)`:
build an IBLT of the logged elements in the received sketch's frame
(`empty_clone`), subtract cell by cell, and accept the difference only
when `(n_dropped as u32) * num_hashes == iblt_sum` (wrapping `u32`
product; the `usize` drop count is truncated to `u32`).  The mask is
`wraparound_mask = (1u32 << bits_per_val) - 1`: a `u32` shift whose
amount is masked to 5 bits in release builds, so for a 32-bit counter
width the shift is by `32 % 32 = 0` and the mask is `0` (the debug
build panics on the overflowing shift instead; wrapping release
semantics modelled, as for `iblt_sum`). -/
def calculateDifferenceIblt (nDropped : ℕ) (loggedElems : List (List ℕ))
    (receivedIblt : InvBloomLookupTable) : Option InvBloomLookupTable :=
  let iblt := loggedElems.foldl InvBloomLookupTable.insert
    receivedIblt.emptyClone
  let mask := 2 ^ (iblt.counters.bits % 32) - 1
  match diffLoop receivedIblt mask (List.range iblt.numEntries) iblt 0 with
  | none => none
  | some (iblt, sum) =>
    if nDropped % 2 ^ 32 * iblt.numHashes % 2 ^ 32 = sum then some iblt
    else none

/-- Characterization of the per-cell difference loop: on the cells of
`idxs` (distinct, in range, still holding the logged values), the loop
aborts exactly when some cell has zero counter difference but nonzero
data difference; on success the accumulated sum is the (wrapping) sum of
the counter differences, the processed cells hold the counter and data
differences, other cells are untouched, and the geometry is preserved. -/
theorem diffLoop_spec (received L : InvBloomLookupTable) (mask : ℕ)
    (dc dd : ℕ → ℕ)
    (hdc : ∀ i, dc i = (L.counters.get i +
      (2 ^ 32 - received.counters.get i % 2 ^ 32)) % 2 ^ 32 &&& mask)
    (hdd : ∀ i, dd i = (L.data.get i +
      (2 ^ 32 - received.data.get i % 2 ^ 32)) % 2 ^ 32) :
    ∀ (idxs : List ℕ) (iblt : InvBloomLookupTable) (sum : ℕ),
      idxs.Nodup → sum < 2 ^ 32 →
      (∀ i ∈ idxs, iblt.counters.get i = L.counters.get i ∧
        iblt.data.get i = L.data.get i ∧
        i < iblt.counters.vals.length ∧ i < iblt.data.vals.length) →
      ((diffLoop received mask idxs iblt sum = none ↔
          ∃ i ∈ idxs, dc i = 0 ∧ dd i ≠ 0) ∧
        ∀ iblt' sum',
          diffLoop received mask idxs iblt sum = some (iblt', sum') →
          sum' = (sum + (idxs.map dc).sum) % 2 ^ 32 ∧
          (∀ i ∈ idxs, iblt'.counters.get i = dc i ∧
            iblt'.data.get i = dd i) ∧
          (∀ j, j ∉ idxs → iblt'.counters.get j = iblt.counters.get j ∧
            iblt'.data.get j = iblt.data.get j) ∧
          iblt'.numHashes = iblt.numHashes ∧
          iblt'.numEntries = iblt.numEntries ∧
          iblt'.counters.bits = iblt.counters.bits) := by
  intro idxs
  induction idxs with
  | nil =>
    intro iblt sum hnd hs hsame
    constructor
    · simp [diffLoop]
    · intro iblt' sum' h
      simp only [diffLoop, Option.some_inj, Prod.mk.injEq] at h
      obtain ⟨rfl, rfl⟩ := h
      exact ⟨by simpa using (Nat.mod_eq_of_lt hs).symm, by simp,
        fun j _ => ⟨rfl, rfl⟩, rfl, rfl, rfl⟩
  | cons i rest ih =>
    intro iblt sum hnd hs hsame
    obtain ⟨hciL, hdiL, hclen, hdlen⟩ := hsame i (List.mem_cons_self _ _)
    have hinotr : i ∉ rest := (List.nodup_cons.mp hnd).1
    have hndr : rest.Nodup := (List.nodup_cons.mp hnd).2
    -- the computed differences at the head cell are `dc i` and `dd i`
    have hstep : diffLoop received mask (i :: rest) iblt sum =
        (if dc i = 0 ∧ dd i ≠ 0 then none
         else diffLoop received mask rest
            { iblt with
                counters := iblt.counters.set i (dc i)
                data := iblt.data.set i (dd i) }
            ((sum + dc i) % 2 ^ 32)) := by
      show (if _ then none else _) = _
      rw [hdc i, hdd i, hciL, hdiL]
    by_cases hbad : dc i = 0 ∧ dd i ≠ 0
    · rw [hstep, if_pos hbad]
      constructor
      · constructor
        · intro _
          exact ⟨i, List.mem_cons_self _ _, hbad⟩
        · intro _
          rfl
      · intro iblt' sum' h
        exact absurd h (by simp)
    · rw [hstep, if_neg hbad]
      set iblt2 : InvBloomLookupTable :=
        { iblt with
            counters := iblt.counters.set i (dc i)
            data := iblt.data.set i (dd i) } with hiblt2
      have hsame2 : ∀ j ∈ rest, iblt2.counters.get j = L.counters.get j ∧
          iblt2.data.get j = L.data.get j ∧
          j < iblt2.counters.vals.length ∧ j < iblt2.data.vals.length := by
        intro j hj
        obtain ⟨hc, hd, hl1, hl2⟩ := hsame j (List.mem_cons_of_mem _ hj)
        have hij : i ≠ j := fun h => hinotr (h ▸ hj)
        refine ⟨?_, ?_, ?_, ?_⟩
        · rw [hiblt2]
          show (iblt.counters.set i (dc i)).get j = _
          rw [ValueVec.get_set_ne _ _ _ _ hij, hc]
        · rw [hiblt2]
          show (iblt.data.set i (dd i)).get j = _
          rw [ValueVec.get_set_ne _ _ _ _ hij, hd]
        · rw [hiblt2]
          show j < (iblt.counters.set i (dc i)).vals.length
          rw [ValueVec.length_set]; exact hl1
        · rw [hiblt2]
          show j < (iblt.data.set i (dd i)).vals.length
          rw [ValueVec.length_set]; exact hl2
      have hsum1 : (sum + dc i) % 2 ^ 32 < 2 ^ 32 :=
        Nat.mod_lt _ (by norm_num)
      obtain ⟨ihnone, ihsome⟩ := ih iblt2 ((sum + dc i) % 2 ^ 32) hndr
        hsum1 hsame2
      constructor
      · rw [ihnone]
        constructor
        · rintro ⟨j, hj, hbadj⟩
          exact ⟨j, List.mem_cons_of_mem _ hj, hbadj⟩
        · rintro ⟨j, hj, hbadj⟩
          rcases List.mem_cons.mp hj with rfl | hj'
          · exact absurd hbadj hbad
          · exact ⟨j, hj', hbadj⟩
      · intro iblt' sum' h
        obtain ⟨hsum', hin, hout, hg1, hg2, hg3⟩ := ihsome iblt' sum' h
        refine ⟨?_, ?_, ?_, hg1, hg2, hg3⟩
        · rw [hsum', Nat.mod_add_mod, List.map_cons, List.sum_cons,
            Nat.add_assoc]
        · intro j hj
          rcases List.mem_cons.mp hj with rfl | hj'
          · obtain ⟨houtc, houtd⟩ := hout j hinotr
            constructor
            · rw [houtc, hiblt2]
              show (iblt.counters.set j (dc j)).get j = dc j
              exact ValueVec.get_set_self _ _ _ hclen
            · rw [houtd, hiblt2]
              show (iblt.data.set j (dd j)).get j = dd j
              exact ValueVec.get_set_self _ _ _ hdlen
          · exact hin j hj'
        · intro j hj
          have hjne : j ∉ rest := fun hm => hj (List.mem_cons_of_mem _ hm)
          have hij : i ≠ j := fun h => hj (h ▸ List.mem_cons_self _ _)
          obtain ⟨houtc, houtd⟩ := hout j hjne
          constructor
          · rw [houtc, hiblt2]
            show (iblt.counters.set i (dc i)).get j = _
            rw [ValueVec.get_set_ne _ _ _ _ hij]
          · rw [houtd, hiblt2]
            show (iblt.data.set i (dd i)).get j = _
            rw [ValueVec.get_set_ne _ _ _ _ hij]

/-- The outcome of the size checks and difference step of
`IBLTAccumulator::validate` (`iblt.rs` lines 322–346): `Invalid`
(`false`) when the log is shorter than the observed count, the
digest-recomputation path when no packets are missing, `Invalid` when
`calculate_difference_iblt` rejects, and otherwise the difference IBLT
handed to the peeling (`eliminate_elems`) / ILP phase. -/
inductive IbltValidateStep where
  | invalidSize
  | digestCheck
  | invalidDiff
  | peel (diff : InvBloomLookupTable)

def validateDecision (a : IBLTAccumulator) (elems : List (List ℕ)) :
    IbltValidateStep :=
  if elems.length < a.digest.count then .invalidSize
  else
    let nDropped := elems.length - a.digest.count
    if nDropped = 0 then .digestCheck
    else
      match calculateDifferenceIblt nDropped elems a.iblt with
      | none => .invalidDiff
      | some iblt => .peel iblt

/-- The counter difference of cell `i` as the claim states it: logged
count minus received count modulo `2^b` (`b` the counter width), where
the logged IBLT is built from the log in the received sketch's frame.
This definition follows the claim's words and is compared against the
source's loop in the C4 theorem. -/
def dcSpec (a : IBLTAccumulator) (elems : List (List ℕ)) (i : ℕ) : ℕ :=
  let L := elems.foldl InvBloomLookupTable.insert a.iblt.emptyClone
  (L.counters.get i +
    (2 ^ a.iblt.counters.bits - a.iblt.counters.get i)) %
    2 ^ a.iblt.counters.bits

/-- The data difference of cell `i` as the claim states it: logged data
sum minus received data sum modulo `2^32`. -/
def ddSpec (a : IBLTAccumulator) (elems : List (List ℕ)) (i : ℕ) : ℕ :=
  let L := elems.foldl InvBloomLookupTable.insert a.iblt.emptyClone
  (L.data.get i + (2 ^ 32 - a.iblt.data.get i)) % 2 ^ 32

/-- C4 (amended): for every IBLT accumulator state with counter width
`b < 32` (at `b = 32` the mask computation `(1u32 << 32) - 1` is a
masked shift yielding mask `0` in release — see the counterexample —
and a panic in debug, so the claimed mod-`2^b` differences are not
computed there), in-range counters and `u32` data sums, at least one
hash function, and small enough totals that the `u32` sum and product
do not wrap, and every log with apparent drop count `d > 0`, validation
computes the difference IBLT cell by cell — counter difference modulo
`2^b`, data difference modulo `2^32` —, is `Invalid` as soon as some
cell has zero counter difference but nonzero data difference, and
proceeds to the peeling/ILP phase if and only if no such cell exists
and `k·d` equals the sum of all counter differences, being `Invalid`
otherwise; the difference IBLT handed on holds exactly those cell
differences. -/
theorem C4_difference_iblt (a : IBLTAccumulator) (elems : List (List ℕ))
    (hd : a.digest.count < elems.length)
    (hbits : a.iblt.counters.bits < 32)
    (hk0 : 0 < a.iblt.numHashes)
    (hrc : ∀ i < a.iblt.numEntries,
      a.iblt.counters.get i < 2 ^ a.iblt.counters.bits)
    (hrd : ∀ i < a.iblt.numEntries, a.iblt.data.get i < 2 ^ 32)
    (hsum : ((List.range a.iblt.numEntries).map (dcSpec a elems)).sum <
      2 ^ 32)
    (hkd : (elems.length - a.digest.count) * a.iblt.numHashes < 2 ^ 32) :
    ((∃ diff, validateDecision a elems = .peel diff) ↔
        ((∀ i < a.iblt.numEntries,
            ¬(dcSpec a elems i = 0 ∧ ddSpec a elems i ≠ 0)) ∧
          (elems.length - a.digest.count) * a.iblt.numHashes =
            ((List.range a.iblt.numEntries).map (dcSpec a elems)).sum)) ∧
      (validateDecision a elems = .invalidDiff ↔
        ¬((∀ i < a.iblt.numEntries,
            ¬(dcSpec a elems i = 0 ∧ ddSpec a elems i ≠ 0)) ∧
          (elems.length - a.digest.count) * a.iblt.numHashes =
            ((List.range a.iblt.numEntries).map (dcSpec a elems)).sum)) ∧
      (∀ diff, validateDecision a elems = .peel diff →
        ∀ i < a.iblt.numEntries, diff.counters.get i = dcSpec a elems i ∧
          diff.data.get i = ddSpec a elems i) := by
  classical
  set R := a.iblt with hR
  set L := elems.foldl InvBloomLookupTable.insert R.emptyClone with hL
  obtain ⟨hgN, hgK, hgB, hgCL, hgDL⟩ :=
    InvBloomLookupTable.foldl_insert_geometry elems R.emptyClone
  have hcloneN : R.emptyClone.numEntries = R.numEntries := rfl
  have hcloneB : R.emptyClone.counters.bits = R.counters.bits := rfl
  have hcloneK : R.emptyClone.numHashes = R.numHashes := rfl
  have hcloneCL : R.emptyClone.counters.vals.length = R.numEntries := by
    show (List.replicate R.numEntries 0).length = R.numEntries
    exact List.length_replicate _ _
  have hcloneDL : R.emptyClone.data.vals.length = R.numEntries := by
    show (List.replicate R.numEntries 0).length = R.numEntries
    exact List.length_replicate _ _
  have hLN : L.numEntries = R.numEntries := hgN.trans hcloneN
  have hLB : L.counters.bits = R.counters.bits := hgB.trans hcloneB
  have hLK : L.numHashes = R.numHashes := hgK.trans hcloneK
  have hLCL : L.counters.vals.length = R.numEntries := hgCL.trans hcloneCL
  have hLDL : L.data.vals.length = R.numEntries := hgDL.trans hcloneDL
  have hLc : ∀ j, L.counters.get j < 2 ^ L.counters.bits :=
    InvBloomLookupTable.foldl_insert_counters_lt elems R.emptyClone
      (InvBloomLookupTable.emptyClone_counters_lt R)
  -- the loop's masked wrapping differences agree with the claim's
  -- `mod 2^b` / `mod 2^32` differences
  have hdceq : ∀ i < R.numEntries,
      (L.counters.get i + (2 ^ 32 - R.counters.get i % 2 ^ 32)) % 2 ^ 32 &&&
        (2 ^ L.counters.bits - 1) = dcSpec a elems i := by
    intro i hi
    have hrci : R.counters.get i < 2 ^ R.counters.bits := hrc i hi
    have hBW : (2 : ℕ) ^ R.counters.bits ∣ 2 ^ 32 := pow_dvd_pow 2 hbits.le
    have hBW' : (2 : ℕ) ^ R.counters.bits ≤ 2 ^ 32 :=
      Nat.pow_le_pow_right (by norm_num) hbits.le
    have hrmod : R.counters.get i % 2 ^ 32 = R.counters.get i :=
      Nat.mod_eq_of_lt (lt_of_lt_of_le hrci hBW')
    rw [hLB, Nat.and_pow_two_sub_one_eq_mod, Nat.mod_mod_of_dvd _ hBW,
      hrmod]
    have hme : (L.counters.get i + (2 ^ R.counters.bits - R.counters.get i))
        ≡ (L.counters.get i + (2 ^ 32 - R.counters.get i))
          [MOD 2 ^ R.counters.bits] := by
      refine (Nat.modEq_iff_dvd' (by omega)).mpr ?_
      have heq : (L.counters.get i + (2 ^ 32 - R.counters.get i)) -
          (L.counters.get i + (2 ^ R.counters.bits - R.counters.get i)) =
          2 ^ 32 - 2 ^ R.counters.bits := by omega
      rw [heq]
      exact Nat.dvd_sub' hBW dvd_rfl
    rw [dcSpec]
    exact hme.symm
  have hddeq : ∀ i < R.numEntries,
      (L.data.get i + (2 ^ 32 - R.data.get i % 2 ^ 32)) % 2 ^ 32 =
        ddSpec a elems i := by
    intro i hi
    rw [Nat.mod_eq_of_lt (hrd i hi)]
    rfl
  -- instantiate the loop characterization
  obtain ⟨hnone, hsome⟩ := diffLoop_spec R L (2 ^ L.counters.bits - 1)
    (fun i => (L.counters.get i + (2 ^ 32 - R.counters.get i % 2 ^ 32)) %
      2 ^ 32 &&& (2 ^ L.counters.bits - 1))
    (fun i => (L.data.get i + (2 ^ 32 - R.data.get i % 2 ^ 32)) % 2 ^ 32)
    (fun i => rfl) (fun i => rfl)
    (List.range L.numEntries) L 0 (List.nodup_range _) (by norm_num)
    (by
      intro i hi
      have hi' : i < R.numEntries := by
        rwa [List.mem_range, hLN] at hi
      exact ⟨rfl, rfl, by rw [hLCL]; exact hi', by rw [hLDL]; exact hi'⟩)
  have hvd : validateDecision a elems =
      (match diffLoop R (2 ^ L.counters.bits - 1) (List.range L.numEntries)
          L 0 with
        | none => IbltValidateStep.invalidDiff
        | some (iblt, sum) =>
          if (elems.length - a.digest.count) % 2 ^ 32 * iblt.numHashes %
              2 ^ 32 = sum
          then IbltValidateStep.peel iblt else IbltValidateStep.invalidDiff) := by
    simp only [validateDecision, calculateDifferenceIblt, ← hR, ← hL]
    rw [Nat.mod_eq_of_lt (show L.counters.bits < 32 from hLB ▸ hbits)]
    rw [if_neg (by omega), if_neg (by omega)]
    cases hE : diffLoop R (2 ^ L.counters.bits - 1) (List.range L.numEntries)
        L 0 with
    | none => rfl
    | some p =>
      obtain ⟨ib, sm⟩ := p
      dsimp only
      by_cases hc : (elems.length - a.digest.count) % 2 ^ 32 * ib.numHashes %
          2 ^ 32 = sm
      · simp only [if_pos hc]
      · simp only [if_neg hc]
  -- the ∃-bad condition in terms of the claim's differences
  have hbadiff : (∃ i ∈ List.range L.numEntries,
      (L.counters.get i + (2 ^ 32 - R.counters.get i % 2 ^ 32)) % 2 ^ 32 &&&
        (2 ^ L.counters.bits - 1) = 0 ∧
      (L.data.get i + (2 ^ 32 - R.data.get i % 2 ^ 32)) % 2 ^ 32 ≠ 0) ↔
      ¬(∀ i < R.numEntries,
        ¬(dcSpec a elems i = 0 ∧ ddSpec a elems i ≠ 0)) := by
    rw [not_forall]
    constructor
    · rintro ⟨i, hi, h1, h2⟩
      have hi' : i < R.numEntries := by rwa [List.mem_range, hLN] at hi
      refine ⟨i, ?_⟩
      rw [Classical.not_imp, not_not]
      exact ⟨hi', (hdceq i hi') ▸ h1, (hddeq i hi') ▸ h2⟩
    · rintro ⟨i, hbad⟩
      rw [Classical.not_imp, not_not] at hbad
      obtain ⟨hi', h1, h2⟩ := hbad
      refine ⟨i, by rw [List.mem_range, hLN]; exact hi', ?_, ?_⟩
      · rw [hdceq i hi']; exact h1
      · rw [hddeq i hi']; exact h2
  have hsumeq : ((List.range L.numEntries).map
      (fun i => (L.counters.get i + (2 ^ 32 - R.counters.get i % 2 ^ 32)) %
        2 ^ 32 &&& (2 ^ L.counters.bits - 1))).sum =
      ((List.range R.numEntries).map (dcSpec a elems)).sum := by
    rw [hLN]
    refine congrArg List.sum (List.map_congr_left ?_)
    intro i hi
    exact hdceq i (List.mem_range.mp hi)
  rcases hloop : diffLoop R (2 ^ L.counters.bits - 1)
      (List.range L.numEntries) L 0 with _ | ⟨iblt', sum'⟩
  · -- the loop aborted: some cell is bad
    have hbad : ¬(∀ i < R.numEntries,
        ¬(dcSpec a elems i = 0 ∧ ddSpec a elems i ≠ 0)) :=
      hbadiff.mp (hnone.mp hloop)
    rw [hvd, hloop]
    refine ⟨?_, ?_, ?_⟩
    · simp only [iff_iff_implies_and_implies]
      constructor
      · rintro ⟨diff, hdiff⟩
        exact absurd hdiff (by simp)
      · rintro ⟨hnobad, -⟩
        exact absurd hnobad hbad
    · exact ⟨fun _ hcon => hbad hcon.1, fun _ => rfl⟩
    · rintro diff hdiff
      exact absurd hdiff (by simp)
  · -- the loop succeeded: no cell is bad, and the sum is exact
    have hnobad : ∀ i < R.numEntries,
        ¬(dcSpec a elems i = 0 ∧ ddSpec a elems i ≠ 0) := by
      by_contra hcon
      exact absurd (hnone.mpr (hbadiff.mpr hcon)) (by rw [hloop]; simp)
    obtain ⟨hsum', -, -, hKeq, -, -⟩ := hsome iblt' sum' hloop
    have hsumval : sum' = ((List.range R.numEntries).map
        (dcSpec a elems)).sum := by
      rw [hsum', Nat.zero_add, hsumeq]
      exact Nat.mod_eq_of_lt hsum
    have hdlt : elems.length - a.digest.count < 2 ^ 32 := by
      calc elems.length - a.digest.count
          ≤ (elems.length - a.digest.count) * a.iblt.numHashes :=
            Nat.le_mul_of_pos_right _ hk0
        _ < 2 ^ 32 := hkd
    have hcond : (elems.length - a.digest.count) % 2 ^ 32 *
        iblt'.numHashes % 2 ^ 32 = sum' ↔
        (elems.length - a.digest.count) * a.iblt.numHashes =
          ((List.range R.numEntries).map (dcSpec a elems)).sum := by
      rw [hKeq, hLK, Nat.mod_eq_of_lt hdlt, Nat.mod_eq_of_lt hkd, hsumval]
    rw [hvd, hloop]
    dsimp only
    by_cases hc : (elems.length - a.digest.count) % 2 ^ 32 *
        iblt'.numHashes % 2 ^ 32 = sum'
    · rw [if_pos hc]
      have hcr := hcond.mp hc
      refine ⟨?_, ?_, ?_⟩
      · constructor
        · intro _
          exact ⟨hnobad, hcr⟩
        · intro _
          exact ⟨iblt', rfl⟩
      · constructor
        · intro hcontra
          exact absurd hcontra (by simp)
        · intro hcontra
          exact absurd ⟨hnobad, hcr⟩ hcontra
      · intro diff hdiff i hi
        have hdiffeq : diff = iblt' := by
          have := hdiff
          simp only [IbltValidateStep.peel.injEq] at this
          exact this.symm
        subst hdiffeq
        obtain ⟨-, hin, -, -, -, -⟩ := hsome diff sum' hloop
        have hi' : i ∈ List.range L.numEntries := by
          rw [List.mem_range, hLN]; exact hi
        obtain ⟨hci, hdi⟩ := hin i hi'
        exact ⟨(hdceq i hi) ▸ hci, (hddeq i hi) ▸ hdi⟩
    · rw [if_neg hc]
      refine ⟨?_, ?_, ?_⟩
      · constructor
        · rintro ⟨diff, hdiff⟩
          exact absurd hdiff (by simp)
        · rintro ⟨-, hceq⟩
          exact absurd (hcond.mpr hceq) hc
      · constructor
        · intro _
          rintro ⟨-, hceq⟩
          exact absurd (hcond.mpr hceq) hc
        · intro _
          rfl
      · rintro diff hdiff
        exact absurd hdiff (by simp)

/-- A concrete received sketch for exercising the difference
computation: 6 cells, 4-bit counters, 32-bit data sums, 3 hash
positions per element. -/
def c4Base : InvBloomLookupTable :=
  { counters := ValueVec.new 4 6
    data := ValueVec.new 32 6
    numEntries := 6
    numHashes := 3
    seed := 0
    h1 := fun x => x
    h2 := fun x => 2 * x + 1 }

/-- A concrete accumulator state: `[1]` and `[2]` received (digest count
2). -/
def c4Acc : IBLTAccumulator :=
  { digest := ⟨0, 2, []⟩
    iblt := (c4Base.insert [1]).insert [2] }

/-- The concrete log: five elements, so three apparent drops. -/
def c4Elems : List (List ℕ) := [[1], [2], [3], [4], [5]]

/-- C4 witness: on the concrete accumulator every hypothesis holds and
validation of the five-element log proceeds to the peeling phase, with
`k·d = 3·3 = 9` equal to the sum of the counter differences. -/
theorem C4_difference_iblt_witness :
    (c4Acc.digest.count < c4Elems.length ∧
      c4Acc.iblt.counters.bits < 32 ∧
      0 < c4Acc.iblt.numHashes ∧
      (∀ i < c4Acc.iblt.numEntries,
        c4Acc.iblt.counters.get i < 2 ^ c4Acc.iblt.counters.bits) ∧
      (∀ i < c4Acc.iblt.numEntries, c4Acc.iblt.data.get i < 2 ^ 32) ∧
      ((List.range c4Acc.iblt.numEntries).map (dcSpec c4Acc c4Elems)).sum <
        2 ^ 32 ∧
      (c4Elems.length - c4Acc.digest.count) * c4Acc.iblt.numHashes <
        2 ^ 32) ∧
    (((∃ diff, validateDecision c4Acc c4Elems = .peel diff) ↔
        ((∀ i < c4Acc.iblt.numEntries,
            ¬(dcSpec c4Acc c4Elems i = 0 ∧ ddSpec c4Acc c4Elems i ≠ 0)) ∧
          (c4Elems.length - c4Acc.digest.count) * c4Acc.iblt.numHashes =
            ((List.range c4Acc.iblt.numEntries).map
              (dcSpec c4Acc c4Elems)).sum)) ∧
      (validateDecision c4Acc c4Elems = .invalidDiff ↔
        ¬((∀ i < c4Acc.iblt.numEntries,
            ¬(dcSpec c4Acc c4Elems i = 0 ∧ ddSpec c4Acc c4Elems i ≠ 0)) ∧
          (c4Elems.length - c4Acc.digest.count) * c4Acc.iblt.numHashes =
            ((List.range c4Acc.iblt.numEntries).map
              (dcSpec c4Acc c4Elems)).sum)) ∧
      (∀ diff, validateDecision c4Acc c4Elems = .peel diff →
        ∀ i < c4Acc.iblt.numEntries,
          diff.counters.get i = dcSpec c4Acc c4Elems i ∧
          diff.data.get i = ddSpec c4Acc c4Elems i)) :=
  ⟨⟨by decide, by decide, by decide, by decide, by decide, by decide,
    by decide⟩,
   C4_difference_iblt c4Acc c4Elems (by decide) (by decide) (by decide)
    (by decide) (by decide) (by decide) (by decide)⟩

/-- A one-cell, one-hash sketch with 32-bit counters. -/
def c4Base32 : InvBloomLookupTable :=
  { counters := ValueVec.new 32 1
    data := ValueVec.new 32 1
    numEntries := 1
    numHashes := 1
    seed := 0
    h1 := fun x => x
    h2 := fun x => 2 * x + 1 }

/-- An empty 32-bit-counter accumulator (nothing received, digest count
`0`). -/
def c4Acc32 : IBLTAccumulator :=
  { digest := ⟨0, 0, []⟩
    iblt := c4Base32 }

/-- C4 counterexample: at counter width `b = 32` the claim's mod-`2^b`
difference rule does not describe the program.  Against the empty
32-bit-counter receiver and the one-element log `[[1]]`, the cell's
counter difference mod `2^32` is `1` and its data difference is the DJB
image `177574` (so no cell has zero counter difference with nonzero
data difference) and `k·d = 1·1` equals the sum of counter differences,
so the claim demands the peeling phase; but
`wraparound_mask = (1u32 << 32) - 1` is a masked shift yielding mask
`0` in release, which zeroes the computed counter difference while the
data difference stays nonzero, and validation reports `invalidDiff`
(the debug build panics on the overflowing shift instead). -/
theorem C4_counterexample :
    validateDecision c4Acc32 [[1]] = .invalidDiff ∧
      c4Acc32.iblt.counters.bits = 32 ∧
      (∀ i < c4Acc32.iblt.numEntries,
        ¬(dcSpec c4Acc32 [[1]] i = 0 ∧ ddSpec c4Acc32 [[1]] i ≠ 0)) ∧
      (([[1]] : List (List ℕ)).length - c4Acc32.digest.count) *
          c4Acc32.iblt.numHashes =
        ((List.range c4Acc32.iblt.numEntries).map
          (dcSpec c4Acc32 [[1]])).sum :=
  ⟨rfl, rfl, by decide, by decide⟩

end IBLTAccumulator

/-- C9 counterexample: the claim says `IBLTQuackU32::serialize` panics on
every quACK immediately after `sub_assign`; but `IBLTQuackU32::sub_assign`
does not clear `last_value` (unlike the power-sum quACK), so after
inserting `5` and subtracting an empty sketch the last value is still
`Some 5` and `serialize` succeeds. -/
theorem C9_counterexample :
    IBLTQuackU32.subAssign (IBLTQuackU32.insert (IBLTQuackU32.new 1) 5)
        (IBLTQuackU32.new 1) =
      some (IBLTQuackU32.mk [⟨5, 1⟩] (some 5) 1) ∧
      (IBLTQuackU32.mk [⟨5, 1⟩] (some 5) 1).lastValue = some 5 ∧
      (IBLTQuackU32.mk [⟨5, 1⟩] (some 5) 1).serialize.isSome = true := by
  refine ⟨by decide, rfl, rfl⟩

/-- C9 (amended): `PowerSumQuackU32::serialize`, `serialize_with_hint`,
and `IBLTQuackU32::serialize` panic exactly when `last_value` is `None`
and succeed exactly when it is `Some`; `last_value` is `None` for every
freshly constructed quACK, after `PowerSumQuackU32::sub_assign` and
`sub`, and after `IBLTQuackU32::sub` — but `IBLTQuackU32::sub_assign`
leaves `last_value` unchanged. -/
theorem C9_serialize_requires_last_value :
    (∀ q : PowerSumQuackU32, q.serialize = none ↔ q.lastValue = none) ∧
      (∀ (q : PowerSumQuackU32) (numMissing : ℕ),
        q.serializeWithHint numMissing = none ↔ q.lastValue = none) ∧
      (∀ q : IBLTQuackU32, q.serialize = none ↔ q.lastValue = none) ∧
      (∀ t : ℕ, (PowerSumQuackU32.new t).lastValue = none ∧
        (IBLTQuackU32.new t).lastValue = none) ∧
      (∀ q r q' : PowerSumQuackU32,
        PowerSumQuackU32.subAssign q r = some q' → q'.lastValue = none) ∧
      (∀ q r : PowerSumQuackU32, (q.sub r).lastValue = none) ∧
      (∀ q r : IBLTQuackU32, (q.sub r).lastValue = none) ∧
      (∀ q r q' : IBLTQuackU32,
        IBLTQuackU32.subAssign q r = some q' → q'.lastValue = q.lastValue) := by
  refine ⟨?_, ?_, ?_, fun t => ⟨rfl, rfl⟩, ?_, fun q r => rfl, fun q r => rfl,
    ?_⟩
  · intro q
    cases h : q.lastValue <;>
      simp [PowerSumQuackU32.serialize, h]
  · intro q numMissing
    cases h : q.lastValue <;>
      simp [PowerSumQuackU32.serializeWithHint, h]
  · intro q
    cases h : q.lastValue <;>
      simp [IBLTQuackU32.serialize, h]
  · intro q r q' h
    simp only [PowerSumQuackU32.subAssign] at h
    split at h
    · exact absurd h (by simp)
    · simp only [Option.some_inj] at h
      rw [← h]
  · intro q r q' h
    simp only [IBLTQuackU32.subAssign] at h
    split at h
    · exact absurd h (by simp)
    · split at h
      · exact absurd h (by simp)
      · simp only [Option.some_inj] at h
        rw [← h]

/-- C9 witness: the characterization applied at concrete states — a fresh
power-sum quACK (serialize panics), and a power-sum quACK after
`sub_assign` (last value cleared). -/
theorem C9_serialize_requires_last_value_witness :
    (PowerSumQuackU32.new 1).serialize = none ∧
      (PowerSumQuackU32.mk [⟨0⟩] none 0).lastValue = none :=
  ⟨(C9_serialize_requires_last_value.1 (PowerSumQuackU32.new 1)).mpr rfl,
    C9_serialize_requires_last_value.2.2.2.2.1 (PowerSumQuackU32.new 1)
      (PowerSumQuackU32.new 1) (PowerSumQuackU32.mk [⟨0⟩] none 0) (by decide)⟩

/-- C10 (confirmed): behaviour of the subset-only RIBLT decoder.
The decodable queue holds exactly the cells with count `±1` or count `0`
with hash `0`; when the queue processing succeeds with state `st`,
`decode` returns `Some(remote)` iff every coded cell was resolved
(`st.decoded = |sketch|`) and returns `None` iff peeling stalled with
unresolved cells; and processing a decodable cell whose count is `-1`
(an element present only in the subtracted quACK) panics
("only handle subset reconciliation") rather than returning `None`. -/
theorem C10_decoder_subset_only :
    (∀ (cs : List CodedSymbol) (i : ℕ),
      i ∈ IBLTQuackU32.initQueue cs ↔
        (i < cs.length ∧ ((cs.getD i ⟨0, 0⟩).count = 1 ∨
          (cs.getD i ⟨0, 0⟩).count = 255 ∨
          ((cs.getD i ⟨0, 0⟩).count = 0 ∧ (cs.getD i ⟨0, 0⟩).hash = 0)))) ∧
      (∀ (q : IBLTQuackU32) (st : IBLTQuackU32.DecoderState),
        IBLTQuackU32.tryDecode q.sketch = .ok st →
          (q.decode = .ok (some st.remote) ↔ st.decoded = q.sketch.length) ∧
            (q.decode = .ok none ↔ st.decoded ≠ q.sketch.length)) ∧
      (∀ (st : IBLTQuackU32.DecoderState) (cidx : ℕ) (rest : List ℕ),
        (st.cs.getD cidx ⟨0, 0⟩).count = 255 →
          IBLTQuackU32.tryDecodeLoop (cidx :: rest) st =
            .error "only handle subset reconciliation") := by
  refine ⟨?_, ?_, ?_⟩
  · intro cs i
    simp only [IBLTQuackU32.initQueue, List.mem_filter, List.mem_range,
      Bool.or_eq_true, Bool.and_eq_true, beq_iff_eq]
    tauto
  · intro q st h
    have hlen : st.cs.length = q.sketch.length :=
      IBLTQuackU32.tryDecodeLoop_cs_length _ _ _ h
    have hdec : q.decode =
        .ok (if st.decoded = st.cs.length then some st.remote else none) := by
      simp only [IBLTQuackU32.decode, IBLTQuackU32.tryDecode] at h ⊢
      rw [h]
    rw [hlen] at hdec
    by_cases hd : st.decoded = q.sketch.length
    · rw [if_pos hd] at hdec
      constructor
      · exact ⟨fun _ => hd, fun _ => hdec⟩
      · constructor
        · intro hnone
          rw [hdec] at hnone
          exact absurd hnone (by simp)
        · intro hne
          exact absurd hd hne
    · rw [if_neg hd] at hdec
      constructor
      · constructor
        · intro hsome
          rw [hdec] at hsome
          exact absurd hsome (by simp)
        · intro hd'
          exact absurd hd' hd
      · exact ⟨fun _ => hd, fun _ => hdec⟩
  · intro st cidx rest h255
    simp only [IBLTQuackU32.tryDecodeLoop]
    rw [if_neg (by rw [h255]; decide), if_pos h255]

/-- C10 witness: decoding the concrete one-cell sketch after inserting
`5` recovers `[5]`, and processing a queued cell of count `-1` panics. -/
theorem C10_decoder_subset_only_witness :
    (IBLTQuackU32.insert (IBLTQuackU32.new 1) 5).decode = .ok (some [5]) ∧
      IBLTQuackU32.tryDecodeLoop [0]
          (IBLTQuackU32.DecoderState.mk [⟨7, 255⟩] [] 0) =
        .error "only handle subset reconciliation" :=
  ⟨((C10_decoder_subset_only.2.1 (IBLTQuackU32.insert (IBLTQuackU32.new 1) 5)
      (IBLTQuackU32.DecoderState.mk [⟨0, 0⟩] [5] 1) rfl).1).mpr
      (by decide),
    C10_decoder_subset_only.2.2 (IBLTQuackU32.DecoderState.mk [⟨7, 255⟩] [] 0)
      0 [] (by decide)⟩

/-! The power-sum accumulator of `accumulator/src/power_sum.rs`:
field arithmetic, Newton's identities, and `validate`. -/

/-- `PowerSumAccumulator`: an additive multiset hash digest and the
power sums.  The SHA3 hash function of the digest is a parameter of the
operations, as in the digest development above. -/
structure PowerSumAccumulator where
  digest : Digest
  powerSums : List ℕ
  deriving Repr, DecidableEq

namespace PowerSumAccumulator

/-- `LARGE_PRIME` of `accumulator/src/power_sum.rs` (equal to the
`_U32`/`_U64` copies). -/
def largePrime : ℕ := 4294967029

/-- `DJB_MASK = (1 << 31) - 1`. -/
def djbMask : ℕ := 2 ^ 31 - 1

/-- `add_and_mod(a, b)`: the `u64` sum of two `u32` operands never
overflows, so the computation is the exact sum reduced mod the prime. -/
def addAndMod (a b : ℕ) : ℕ := (a + b) % largePrime

/-- `mul_and_mod(a, b)`: the `u64` product of two `u32` operands never
overflows, so the computation is the exact product reduced mod the
prime. -/
def mulAndMod (a b : ℕ) : ℕ := a * b % largePrime

/-- The extended-Euclid loop of `div_and_mod` computing the modular
inverse: `old_r`/`r` stay nonnegative (they run the Euclidean remainder
chain, so i64 division is natural division on them) and `old_x` is the
running Bezout coefficient; the loop exits when `r = 0` with `old_x`.
`r` strictly decreases every iteration, so fuel `r + 1` runs the loop to
its exit. -/
def mmiF : ℕ → ℕ → ℕ → ℤ → ℤ → ℤ
  | 0, _, _, oldX, _ => oldX
  | fuel + 1, oldR, r, oldX, x =>
    if r = 0 then oldX
    else mmiF fuel r (oldR % r) x (oldX - ((oldR / r : ℕ) : ℤ) * x)

/-- `div_and_mod(a, b)`: the gcd loop starts from `x = min(a, b)` and
`y = max(a, b)` and iterates `(x, y) ← (y − x·(y/x), x)`, i.e.
`(y mod x, x)`: for `x > 0` that is the Euclidean algorithm and the
break value is `gcd a b`, while for `min(a, b) = 0` the first `y / x`
is an i64 division by zero and the function panics (`none`).  Both
arguments are divided by the gcd, `a` is reduced mod the prime, and
unless `b/gcd = 1` the result is multiplied by the inverse of `b/gcd`
from the extended-Euclid loop (`while mmi < 0 { mmi += p }` followed by
`% p` yields the canonical residue, i.e. `Int.emod`). -/
def divAndMod (a b : ℕ) : Option ℕ :=
  if min a b = 0 then none
  else
    let g := Nat.gcd a b
    let a' := a / g % largePrime
    let b' := b / g
    if b' = 1 then some a'
    else
      let mmi := (mmiF (largePrime + 1) b' largePrime 1 0 %
        (largePrime : ℤ)).toNat
      some (mulAndMod a' mmi)

/-- The inner loop of `calculate_power_sums` (also of `process`) for one
element: `value` iterates `value ← mul_and_mod(value, x)` down the
power-sum vector and each entry accumulates with `add_and_mod`. -/
def psAddLoop (x : ℕ) : List ℕ → ℕ → List ℕ
  | [], _ => []
  | p :: rest, value =>
    let value' := mulAndMod value x
    addAndMod p value' :: psAddLoop x rest value'

/-- `calculate_power_sums(elems, num_psums)`: the source splits `elems`
into per-cpu contiguous ranges (the last range absorbing the
remainder), folds each slice with the inner loop, and merges the
per-thread vectors entry-wise with `add_and_mod`; since `add_and_mod`
is associative and commutative on residues this equals the single fold
over `elems` in order, modelled here (the cpu count does not change the
result). -/
def calculatePowerSums (elems : List ℕ) (numPsums : ℕ) : List ℕ :=
  elems.foldl (fun ps x => psAddLoop x ps 1) (List.replicate numPsums 0)

/-- `calculate_difference(lhs, rhs)`: entry-wise
`lhs[i] + (LARGE_PRIME − rhs[i])` mod the prime, over the shorter
length. -/
def calculateDifference (lhs rhs : List ℕ) : List ℕ :=
  (List.range (min lhs.length rhs.length)).map
    (fun i => addAndMod (lhs.getD i 0) (largePrime - rhs.getD i 0))

/-- `compute_polynomial_coefficients(p)`: Newton's identities.  The
signed i64 `sum` is brought into `[0, LARGE_PRIME)` by the
`while sum < 0 { sum += LARGE_PRIME }` loop followed by
`% LARGE_PRIME` — together the canonical residue, `Int.emod`.
`div_and_mod(sum, i+1)` divides by `i+1` in the field and panics
(`none`) when `sum = 0`, since the gcd loop then divides by
`min(sum, i+1) = 0`.  The final pass replaces each odd-index
coefficient `e[i]` (a residue `< LARGE_PRIME`) by
`-e[i] + LARGE_PRIME`. -/
def computePolynomialCoefficients (p : List ℕ) : Option (List ℕ) :=
  if p.length = 0 then some []
  else do
    let e ← (List.range p.length).foldlM
      (fun (e : List ℕ) i => do
        let sum : ℤ := ((List.range (i + 1)).map (fun j =>
          if j % 2 = 0 then (mulAndMod (e.getD (i - j) 0) (p.getD j 0) : ℤ)
          else -(mulAndMod (e.getD (i - j) 0) (p.getD j 0) : ℤ))).sum
        let s := (sum % (largePrime : ℤ)).toNat
        let q ← divAndMod s (i + 1)
        pure (e ++ [q]))
      [1]
    pure (List.zipWith (fun i x => if i % 2 = 1 then largePrime - x else x)
      (List.range e.length) e)

end PowerSumAccumulator

/-- Modelled from the spec: the `ValidationResult` enum of the
accumulator crate ("`Valid`, `Invalid`, `PsumExceedsThreshold`,
`PsumErrorFindingRoots`, `PsumCollisionsValid`, `PsumCollisionsInvalid`,
`IbltIlpValid`, `IbltIlpInvalid`"); the defining module is not under
`src/` (the `lib.rs` present is an older revision without it). -/
inductive ValidationResult where
  | Valid
  | Invalid
  | PsumExceedsThreshold
  | PsumErrorFindingRoots
  | PsumCollisionsValid
  | PsumCollisionsInvalid
  | IbltIlpValid
  | IbltIlpInvalid
  deriving Repr, DecidableEq

/-- Modelled from the spec: "`is_valid()` collapses
`Valid | PsumCollisionsValid | IbltIlpValid` to true". -/
def ValidationResult.isValid : ValidationResult → Bool
  | .Valid => true
  | .PsumCollisionsValid => true
  | .IbltIlpValid => true
  | _ => false

namespace PowerSumAccumulator

/-- `PowerSumAccumulator::new(threshold, seed)`, with the digest's
nonce passed explicitly (`Digest::new`/`new_with_seed` derive it from
randomness or the seed) and the SHA3 hash function a parameter. -/
def new (h : ℕ → List ℕ → ℕ) (threshold : ℕ) (nonce : List ℕ) :
    PowerSumAccumulator :=
  { digest := Digest.newWithSeed h nonce
    powerSums := List.replicate threshold 0 }

/-- `process(elem)`: digest-add, then accumulate the powers of
`elem_to_u32(elem) & DJB_MASK` into the power sums with the inner
loop. -/
def process (h : ℕ → List ℕ → ℕ) (acc : PowerSumAccumulator)
    (elem : List ℕ) : PowerSumAccumulator :=
  { digest := Digest.add h acc.digest elem
    powerSums := psAddLoop (djbHash elem &&& djbMask) acc.powerSums 1 }

/-- `HashMap` state is modelled as an insertion-ordered association
list; Rust's `HashMap` iteration order is unspecified, and the theorems
below only evaluate maps that either hold a single key or whose
downstream use is order-insensitive.  `assocIncr` is
`*map.entry(k).or_insert(0) += 1` (the root-multiplicity map). -/
def assocIncr (m : List (ℕ × ℕ)) (k : ℕ) : List (ℕ × ℕ) :=
  if (m.lookup k).isSome then
    m.map (fun kv => if kv.1 = k then (kv.1, kv.2 + 1) else kv)
  else m ++ [(k, 1)]

/-- `collisions.entry(k).or_insert(vec![]).push(v)` on the
insertion-ordered association-list model. -/
def assocPush (m : List (ℕ × List (List ℕ))) (k : ℕ) (v : List ℕ) :
    List (ℕ × List (List ℕ)) :=
  if (m.lookup k).isSome then
    m.map (fun kv => if kv.1 = k then (kv.1, kv.2 ++ [v]) else kv)
  else m ++ [(k, [v])]

/-- itertools' `multi_cartesian_product`: on no factors it yields no
items (not one empty item); otherwise the usual product, one pick per
factor. -/
def multiCartesianProduct {α : Type} : List (List α) → List (List α)
  | [] => []
  | [l] => l.map (fun x => [x])
  | l :: rest =>
    l.flatMap (fun x => (multiCartesianProduct rest).map (fun ys => x :: ys))

/-- The dropped-roots resolution loop of `validate`
(`for (elem_u32, dropped_count) in dropped_counts`), carrying the
digest of received elements and the queued candidate combinations;
`none` is the loop's early `return ValidationResult::Invalid` (a root
with no candidates, or more drops than candidates).  When every
candidate is the same byte string the non-dropped copies are folded
into the digest; otherwise the per-element pigeonhole trim caps each
candidate's count at the root multiplicity (force-adding the excess
copies to the digest) and `combinations(received_count)` over the
trimmed candidate multiset is queued (`List.sublistsLen`, which lists
the same combinations as itertools in another order).  The `dropped`
counter of the source is only logged and is omitted. -/
def collisionLoop (h : ℕ → List ℕ → ℕ)
    (collisions : List (ℕ × List (List ℕ))) :
    List (ℕ × ℕ) → Digest → List (List (List (List ℕ))) →
    Option (Digest × List (List (List (List ℕ))))
  | [], digest, combos => some (digest, combos)
  | (u, droppedCount) :: rest, digest, combos =>
    match collisions.lookup u with
    | none => none
    | some es =>
      if droppedCount = es.length then
        collisionLoop h collisions rest digest combos
      else if es.length < droppedCount then none
      else
        let receivedCount := es.length - droppedCount
        if es.dedup.length = 1 then
          collisionLoop h collisions rest
            (Digest.addAll h digest (es.take receivedCount)) combos
        else
          let st := es.foldl
            (fun (st : Digest × List (List ℕ × ℕ)) e =>
              match st.2.lookup e with
              | none =>
                if 0 < droppedCount then (st.1, st.2 ++ [(e, 1)])
                else (Digest.add h st.1 e, st.2 ++ [(e, 0)])
              | some c =>
                if c < droppedCount then
                  (st.1, st.2.map (fun kv =>
                    if kv.1 = e then (kv.1, c + 1) else kv))
                else (Digest.add h st.1 e, st.2))
            (digest, [])
          let cands := st.2.flatMap (fun kv => List.replicate kv.2 kv.1)
          collisionLoop h collisions rest st.1
            (combos ++ [cands.sublistsLen receivedCount])

/-- The tail of `validate` from the root finder's return on: `Err` is
`PsumErrorFindingRoots`; on `Ok(roots)` build the root-multiplicity map
(`u32::try_from` on a `u32` root cannot fail, so that `Invalid` branch
is dead and omitted), partition the log into digest-adds and collision
candidates, resolve the collisions, and try every Cartesian combination
of kept candidates against the stored digest. -/
def postRoots (h : ℕ → List ℕ → ℕ) (nonce : List ℕ)
    (acc : PowerSumAccumulator) (elems : List (List ℕ)) :
    Option (List ℕ) → ValidationResult
  | none => .PsumErrorFindingRoots
  | some roots =>
    let droppedCounts := roots.foldl assocIncr []
    let dc := elems.foldl (fun (st : Digest × List (ℕ × List (List ℕ))) e =>
      let u := djbHash e &&& djbMask
      if (droppedCounts.lookup u).isSome then (st.1, assocPush st.2 u e)
      else (Digest.add h st.1 e, st.2))
      (Digest.newWithSeed h nonce, [])
    match collisionLoop h dc.2 droppedCounts dc.1 [] with
    | none => .Invalid
    | some (digest, combos) =>
      let products := multiCartesianProduct combos
      if products.any (fun curr =>
          Digest.equals h
            ((curr.flatMap (fun v => v)).foldl (Digest.add h) digest)
            acc.digest)
      then .PsumCollisionsValid
      else if Digest.equals h digest acc.digest then .Valid
      else if products.length = 0 then .Invalid
      else .PsumCollisionsInvalid

/-- `PowerSumAccumulator::validate(elems)`, parametric in the SHA3 hash
function `h`, the external libpari root finder `rf`, and the nonce
drawn by the `Digest::new()` calls inside validation.  `none` models a
panic (`div_and_mod`'s division by zero inside Newton's identities). -/
def validate (h : ℕ → List ℕ → ℕ) (rf : List ℕ → Option (List ℕ))
    (nonce : List ℕ) (acc : PowerSumAccumulator)
    (elems : List (List ℕ)) : Option ValidationResult :=
  if acc.digest.count = 0 then some .Valid
  else if elems.length < acc.digest.count then some .Invalid
  else
    let nValues := elems.length - acc.digest.count
    let threshold := acc.powerSums.length
    if threshold < nValues then some .PsumExceedsThreshold
    else if nValues = 0 then
      let digest := elems.foldl (Digest.add h) (Digest.newWithSeed h nonce)
      some (if Digest.equals h digest acc.digest then .Valid else .Invalid)
    else do
      let elemsU32 := elems.map (fun e => djbHash e &&& djbMask)
      let powerSums := calculatePowerSums elemsU32 nValues
      let powerSumsDiff := calculateDifference powerSums acc.powerSums
      let coeffs ← computePolynomialCoefficients (powerSumsDiff.take nValues)
      some (postRoots h nonce acc elems (rf coeffs))

/-- Modelled from the spec: the monic expansion `∏ (X − r)` over
`GF(LARGE_PRIME)`, leading coefficient first — the polynomial whose
roots the external libpari routine recovers ("Factor the polynomial
over `GF(q)`").  Multiplying by `(X − r)` maps coefficients `c₀..c_n`
to `c_i − r·c_{i−1}` in the field. -/
def polyMulRoot (r : ℕ) (cs : List ℕ) : List ℕ :=
  List.zipWith
    (fun ci cim1 => (ci + (largePrime - mulAndMod r cim1)) % largePrime)
    (cs ++ [0]) (0 :: cs)

/-- Modelled from the spec: the coefficient list of `∏ (X − r)` over
the roots, matching the output convention of
`compute_polynomial_coefficients` (leading 1 first, residues in
`[0, LARGE_PRIME)`). -/
def polyFromRoots (roots : List ℕ) : List ℕ :=
  roots.foldl (fun cs r => polyMulRoot r cs) [1]

/-- Modelled from the spec: conformance of the external libpari root
finder (`find_integer_monic_polynomial_roots_libpari`).  Soundness: a
returned root list has the input polynomial's degree, lives in the
field, and its monic expansion is the input.  Completeness on linear
inputs: on a monic linear polynomial, which always splits, the finder
succeeds ("Factor the polynomial over GF(q); if it does not split into
d roots in the image domain, return PsumErrorFindingRoots"). -/
def rootFinderConforms (rf : List ℕ → Option (List ℕ)) : Prop :=
  (∀ coeffs roots, rf coeffs = some roots →
    roots.length + 1 = coeffs.length ∧ (∀ r ∈ roots, r < largePrime) ∧
    polyFromRoots roots = coeffs) ∧
  ∀ c < largePrime, (rf [1, c]).isSome

/-- The monic expansion of a single root `r`: `X − r` has coefficients
`[1, −r mod LARGE_PRIME]`. -/
theorem polyFromRoots_single (r : ℕ) :
    polyFromRoots [r] =
      [1, (largePrime - r % largePrime) % largePrime] := by
  show polyMulRoot r [1] = _
  show [(1 + (largePrime - mulAndMod r 0)) % largePrime,
    (0 + (largePrime - mulAndMod r 1)) % largePrime] = _
  rw [List.cons_eq_cons]
  constructor
  · show (1 + (largePrime - 0 % largePrime)) % largePrime = 1
    rw [Nat.zero_mod, Nat.sub_zero, Nat.add_mod_right]
    decide
  · rw [List.cons_eq_cons]
    refine ⟨?_, rfl⟩
    show (0 + (largePrime - r * 1 % largePrime)) % largePrime = _
    rw [Nat.zero_add, Nat.mul_one]

/-- A conforming root finder is forced to return exactly `[5859942]` on
the monic linear polynomial `X − 5859942` arising in the C1 run. -/
theorem conforming_forced (rf : List ℕ → Option (List ℕ))
    (hrf : rootFinderConforms rf) :
    rf [1, 4289107087] = some [5859942] := by
  obtain ⟨hsound, hcompl⟩ := hrf
  have hs := hcompl 4289107087 (by decide)
  obtain ⟨roots, hroots⟩ := Option.isSome_iff_exists.mp hs
  obtain ⟨hlen, hbound, hpoly⟩ := hsound _ _ hroots
  have hlen1 : roots.length = 1 := by
    simpa using hlen
  obtain ⟨r, rfl⟩ := List.length_eq_one.mp hlen1
  have hr : r < largePrime := hbound r (by simp)
  rw [polyFromRoots_single, Nat.mod_eq_of_lt hr] at hpoly
  have h2 : (largePrime - r) % largePrime = 4289107087 :=
    (List.cons_eq_cons.mp (List.cons_eq_cons.mp hpoly).2).1
  have hp : largePrime = 4294967029 := rfl
  rcases Nat.eq_zero_or_pos r with rfl | hpos
  · rw [Nat.sub_zero, Nat.mod_self] at h2
    exact absurd h2 (by decide)
  · rw [Nat.mod_eq_of_lt (by omega)] at h2
    have : r = 5859942 := by omega
    rw [hroots, this]

/-- A concrete conforming root finder for monic linear polynomials:
`X − u ≡ X + (LARGE_PRIME − u)` has the single root `u`. -/
def linearRootFinder : List ℕ → Option (List ℕ)
  | [a, c] =>
    if a = 1 ∧ c < largePrime then
      if c = 0 then some [0] else some [largePrime - c]
    else none
  | _ => none

/-- `linearRootFinder` is sound everywhere (it only answers on monic
linear inputs, where its answer expands back to the input) and succeeds
on every monic linear polynomial. -/
theorem linearRootFinder_conforms : rootFinderConforms linearRootFinder := by
  constructor
  · intro coeffs roots hr
    match coeffs with
    | [] => exact absurd hr (by simp [linearRootFinder])
    | [a] => exact absurd hr (by simp [linearRootFinder])
    | a :: b :: c :: rest => exact absurd hr (by simp [linearRootFinder])
    | [a, c] =>
      simp only [linearRootFinder] at hr
      split at hr
      case isTrue hac =>
        obtain ⟨rfl, hc⟩ := hac
        have hp : largePrime = 4294967029 := rfl
        by_cases hc0 : c = 0
        · subst hc0
          rw [if_pos rfl] at hr
          obtain rfl := (Option.some_inj.mp hr).symm
          refine ⟨rfl, ?_, ?_⟩
          · intro r hrr
            rw [List.mem_singleton] at hrr
            omega
          · rw [polyFromRoots_single]
            decide
        · rw [if_neg hc0] at hr
          obtain rfl := (Option.some_inj.mp hr).symm
          refine ⟨rfl, ?_, ?_⟩
          · intro r hrr
            rw [List.mem_singleton] at hrr
            omega
          · rw [polyFromRoots_single,
              Nat.mod_eq_of_lt (by omega : largePrime - c < largePrime),
              Nat.sub_sub_self (by omega : c ≤ largePrime),
              Nat.mod_eq_of_lt hc]
      case isFalse => exact absurd hr (by simp)
  · intro c hc
    show (linearRootFinder [1, c]).isSome
    rw [show linearRootFinder [1, c] =
        if c = 0 then some [0] else some [largePrime - c] from
      if_pos ⟨rfl, hc⟩]
    by_cases hc0 : c = 0
    · rw [if_pos hc0]; rfl
    · rw [if_neg hc0]; rfl

/-- C3 counterexample: with zero observed packets (`n = 0`), a nonempty
log, and a drop count exceeding the threshold (`d = 3 > t = 1`),
`validate` returns `Valid` at its very first branch ("no elements
received, valid by default") instead of the claimed
`PsumExceedsThreshold`. -/
theorem C3_counterexample :
    validate (fun _ _ => 0) (fun _ => none) []
        ⟨⟨0, 0, []⟩, [0]⟩ [[0], [1], [2]] = some .Valid ∧
      (⟨⟨0, 0, []⟩, [0]⟩ : PowerSumAccumulator).digest.count ≤
        ([[0], [1], [2]] : List (List ℕ)).length ∧
      (⟨⟨0, 0, []⟩, [0]⟩ : PowerSumAccumulator).powerSums.length <
        ([[0], [1], [2]] : List (List ℕ)).length -
          (⟨⟨0, 0, []⟩, [0]⟩ : PowerSumAccumulator).digest.count ∧
      ValidationResult.Valid ≠ ValidationResult.PsumExceedsThreshold :=
  ⟨rfl, by decide, by decide, by decide⟩

/-- C3 (amended): `validate` returns `Invalid` whenever `|log| < n`;
and, provided `n > 0`, it returns `PsumExceedsThreshold` whenever
`|log| ≥ n` and the apparent drop count `d = |log| − n` exceeds the
threshold `t`.  (When `n = 0` the first branch returns `Valid`
unconditionally, so the threshold clause of the original claim fails —
see the counterexample.) -/
theorem C3_validate_size_and_threshold (h : ℕ → List ℕ → ℕ)
    (rf : List ℕ → Option (List ℕ)) (nonce : List ℕ)
    (acc : PowerSumAccumulator) (elems : List (List ℕ)) :
    (elems.length < acc.digest.count →
      validate h rf nonce acc elems = some .Invalid) ∧
    (0 < acc.digest.count → acc.digest.count ≤ elems.length →
      acc.powerSums.length < elems.length - acc.digest.count →
      validate h rf nonce acc elems = some .PsumExceedsThreshold) := by
  constructor
  · intro hlt
    unfold validate
    rw [if_neg (by omega), if_pos hlt]
  · intro h0 hle hth
    unfold validate
    rw [if_neg (by omega), if_neg (by omega)]
    dsimp only
    rw [if_pos hth]

/-- C3 witness: a state with `n = 3` rejects the empty log as
`Invalid`, and a state with `n = 1`, `t = 0` classifies a three-element
log (`d = 2 > 0`) as `PsumExceedsThreshold`. -/
theorem C3_validate_size_and_threshold_witness :
    (([] : List (List ℕ)).length <
        (⟨⟨0, 3, []⟩, [0]⟩ : PowerSumAccumulator).digest.count ∧
      validate (fun _ _ => 0) (fun _ => none) [] ⟨⟨0, 3, []⟩, [0]⟩ [] =
        some .Invalid) ∧
    (0 < (⟨⟨0, 1, []⟩, []⟩ : PowerSumAccumulator).digest.count ∧
      validate (fun _ _ => 0) (fun _ => none) [] ⟨⟨0, 1, []⟩, []⟩
        [[0], [1], [2]] = some .PsumExceedsThreshold) :=
  ⟨⟨by decide,
    (C3_validate_size_and_threshold (fun _ _ => 0) (fun _ => none) []
      ⟨⟨0, 3, []⟩, [0]⟩ []).1 (by decide)⟩,
   ⟨by decide,
    (C3_validate_size_and_threshold (fun _ _ => 0) (fun _ => none) []
      ⟨⟨0, 1, []⟩, []⟩ [[0], [1], [2]]).2 (by decide) (by decide)
      (by decide)⟩⟩

/-- The C1 failing log: the byte strings `[1, 0]` and `[0, 33]` collide
under the DJB image (`elem_to_u32(·) & DJB_MASK = 5859942` for both). -/
def c1Log : List (List ℕ) := [[1, 0], [1, 0], [1, 0], [0, 33]]

/-- The C1 dropped multiset: one copy of `[1, 0]`. -/
def c1Dropped : List (List ℕ) := [[1, 0]]

/-- The C1 processed multiset: the log minus the dropped copy. -/
def c1Processed : List (List ℕ) := [[1, 0], [1, 0], [0, 33]]

/-- The main branch of `validate` (`n > 0`, `n ≤ |log|`, `0 < d ≤ t`)
as a function of the root finder's input: the power-sum pipeline feeds
`compute_polynomial_coefficients`, whose result (or panic) feeds the
root finder and the post-root resolution. -/
theorem validate_main (h : ℕ → List ℕ → ℕ)
    (rf : List ℕ → Option (List ℕ)) (nonce : List ℕ)
    (acc : PowerSumAccumulator) (elems : List (List ℕ)) (n : ℕ)
    (ps : List ℕ) (hn : elems.length - acc.digest.count = n)
    (hps : acc.powerSums = ps)
    (hcount : acc.digest.count ≠ 0)
    (hge : ¬ elems.length < acc.digest.count)
    (hth : ¬ ps.length < n) (hn0 : n ≠ 0) :
    validate h rf nonce acc elems =
      (computePolynomialCoefficients ((calculateDifference
        (calculatePowerSums (elems.map (fun e => djbHash e &&& djbMask)) n)
        ps).take n)).bind
        (fun coeffs => some (postRoots h nonce acc elems (rf coeffs))) := by
  unfold validate
  rw [if_neg hcount, if_neg hge]
  dsimp only
  rw [hn, hps, if_neg hth, if_neg hn0]
  rfl

/-- C1 (code bug): completeness of power-sum validation fails.  An
accumulator of threshold `1 ≥ |D|` that processed exactly `L − D` for
the log `L = c1Log` and dropped multiset `D = c1Dropped` rejects the
log: for every SHA3 hash function, every pair of digest nonces, and
every conforming root finder, `validate(L)` returns `Invalid`, which
`is_valid()` maps to false.  The polynomial is `X − 5859942`, forcing
the single root `5859942`; its four log candidates `[1,0], [1,0],
[1,0], [0,33]` are not all equal, so the pigeonhole trim caps each
candidate at the multiplicity 1 — force-adding two received `[1,0]`
copies to the digest — and then draws `combinations(received_count =
3)` from the 2 trimmed candidates: there are none, so no Cartesian
combination is tried (`n_digests = 0`), and the final digest, missing
`[0,33]`, fails the count comparison of `equals`, yielding `Invalid`
instead of a valid result. -/
theorem C1_completeness_fails (h : ℕ → List ℕ → ℕ) (nonce nonce2 : List ℕ)
    (rf : List ℕ → Option (List ℕ)) (hrf : rootFinderConforms rf) :
    ((c1Processed ++ c1Dropped).Perm c1Log ∧ c1Dropped.length ≤ 1) ∧
    validate h rf nonce2 (c1Processed.foldl (process h) (new h 1 nonce))
      c1Log = some .Invalid ∧
    ValidationResult.Invalid.isValid = false := by
  refine ⟨⟨by decide, by decide⟩, ?_, rfl⟩
  have hforced : rf [1, 4289107087] = some [5859942] :=
    conforming_forced rf hrf
  have hacc : c1Processed.foldl (process h) (new h 1 nonce) =
      ⟨⟨hashAdd (hashAdd (hashAdd (h 0 nonce) (h 1 [1, 0])) (h 1 [1, 0]))
          (h 1 [0, 33]), 3, nonce⟩, [17579826]⟩ := rfl
  rw [hacc, validate_main h rf nonce2
      ⟨⟨hashAdd (hashAdd (hashAdd (h 0 nonce) (h 1 [1, 0])) (h 1 [1, 0]))
          (h 1 [0, 33]), 3, nonce⟩, [17579826]⟩ c1Log 1 [17579826] rfl rfl
      (by simp) (by simp [c1Log]) (by simp) (by simp)]
  have hcpc : computePolynomialCoefficients ((calculateDifference
      (calculatePowerSums (c1Log.map (fun e => djbHash e &&& djbMask)) 1)
      [17579826]).take 1) = some [1, 4289107087] := rfl
  rw [hcpc]
  show some (postRoots h nonce2
      ⟨⟨hashAdd (hashAdd (hashAdd (h 0 nonce) (h 1 [1, 0])) (h 1 [1, 0]))
          (h 1 [0, 33]), 3, nonce⟩, [17579826]⟩ c1Log
      (rf [1, 4289107087])) = some ValidationResult.Invalid
  rw [hforced]
  rfl

/-- C1 witness: the failing run evaluated at the zero hash function,
empty nonces, and the concrete conforming linear root finder. -/
theorem C1_completeness_fails_witness :
    rootFinderConforms linearRootFinder ∧
    validate (fun _ _ => 0) linearRootFinder []
      (c1Processed.foldl (process (fun _ _ => 0))
        (new (fun _ _ => 0) 1 [])) c1Log = some .Invalid :=
  ⟨linearRootFinder_conforms,
   (C1_completeness_fails (fun _ _ => 0) [] [] linearRootFinder
     linearRootFinder_conforms).2.1⟩

end PowerSumAccumulator

end Quack
